import Mathlib

/-!
SCP hacking minigame: the move-validation engine of `src/App.jsx`

The React component `App` keeps the puzzle in a set of `useState` cells and mutates
them from the click handler `handlePick`, the controls `start` / `stop` and a 1 Hz
timer.  This file embeds that engine as pure functions on an explicit `State` record
and proves properties of it.

Modelling conventions (all taken from the source):

* A handler runs against the values captured by its render (the *snapshot*), while
  every `setX(...)` call is queued; functional updaters `setX(prev => ...)` are applied
  in call order to the *pending* value, plain `setX(v)` calls overwrite it.  The
  functions below therefore take two records where the source mixes both kinds of
  read: `s`, the snapshot, and `p`, the pending state built so far.
* `arr[i] ?? 0` is `List.getD arr i 0`; the assignment `next[i] = v` on a copy of an
  array is `setAt`, which extends the array when `i` is past its end (the holes of the
  JavaScript array read as `undefined`, hence as `0` under `?? 0`).
* The win check that `correctPickMulti` defers with `setTimeout(..., 0)` is applied at
  the end of the same pick; it still reads the snapshot, as the closure does.
* Display-only cells (`hoverToken`, `objHoverToken`, `message`, `lastClicked`) are not
  part of `State`.
-/

namespace Hack

/-- A grid token such as `A1` or `85`. -/
abbrev Token := String

/-- The token matrix, `grid[r][c]`. -/
abbrev Grid := List (List Token)

/-- The three values the `constraint` cell takes: `'top-row' | 'column' | 'row'`. -/
inductive Constraint where
  | topRow
  | column
  | row
deriving DecidableEq

/-- The values of the `difficulty` cell other than `null`. -/
inductive Difficulty where
  | easy
  | medium
  | hard
deriving DecidableEq

/-- The `useState` cells of `App` that the engine reads or writes. -/
structure State where
  difficulty : Option Difficulty
  grid : Grid
  objectiveLines : List (List Token)
  running : Bool
  timeLeft : Int
  constraint : Constraint
  lastPos : Option (Nat × Nat)
  faults : Nat
  activeLine : Option Nat
  lineProgress : List Nat
  win : Bool
  fail : Bool
  competeSet : Option (List Nat)
deriving DecidableEq

/-- The constant `TIMER_SECONDS`. -/
def TIMER_SECONDS : Int := 150

/-- The constant `FAULTS_MAX`. -/
def FAULTS_MAX : Nat := 5

/-- The array assignment `next[i] = v`: in range it overwrites, past the end it grows
the array, the skipped cells reading as `0` under `?? 0`. -/
def setAt (xs : List Nat) (i v : Nat) : List Nat :=
  if i < xs.length then xs.set i v
  else xs ++ List.replicate (i - xs.length) 0 ++ [v]

/-- The elements of `new Set(xs)` in insertion order: first occurrences only. -/
def newSet : List Nat → List Nat
  | [] => []
  | x :: xs => x :: (newSet xs).filter (fun y => y ≠ x)

/-- The progress of line `i` as the source reads it: `lineProgress[i] ?? 0`. -/
def progressOf (lp : List Nat) (i : Nat) : Nat := lp.getD i 0

/-- The source's `objectiveLines[i] ?? []`. -/
def lineOf (ls : List (List Token)) (i : Nat) : List Token := ls.getD i []

/-- The function `allowed(r, c)`: the strict row/column constraint check. -/
def allowed (s : State) (r c : Nat) : Bool :=
  if s.constraint = Constraint.topRow then decide (r = 0)
  else
    match s.lastPos with
    | none => false
    | some lp =>
      if s.constraint = Constraint.column then decide (c = lp.2)
      else if s.constraint = Constraint.row then decide (r = lp.1)
      else false

/-- The function `toggleConstraint()`, as the new value of the `constraint` cell. -/
def toggleConstraint (k : Constraint) : Constraint :=
  match k with
  | Constraint.topRow => Constraint.column
  | Constraint.column => Constraint.row
  | Constraint.row => Constraint.column

/-- The loop test of `candidateLinesFor`: `prog < line.length && line[prog] === token`. -/
def isCandidate (s : State) (token : Option Token) (i : Nat) : Bool :=
  let prog := progressOf s.lineProgress i
  let ln := lineOf s.objectiveLines i
  decide (prog < ln.length) && decide (ln[prog]? = token)

/-- The function `candidateLinesFor(token)`: the indexes, in loop order, of the lines
that are not done and whose next token is `token`.  The token is `none` when the
clicked cell holds `undefined`. -/
def candidateLinesFor (s : State) (token : Option Token) : List Nat :=
  (List.range s.objectiveLines.length).filter (isCandidate s token)

/-- The first updater of `correctPickMulti`:
`for (const idx of lineIndexes) next[idx] = (next[idx] ?? 0) + 1`. -/
def advanceAll (prev : List Nat) (lineIndexes : List Nat) : List Nat :=
  lineIndexes.foldl (fun next idx => setAt next idx (progressOf next idx + 1)) prev

/-- The second updater of `correctPickMulti`: `for (const i of others) next[i] = 0`. -/
def nullify (prev : List Nat) (others : List Nat) : List Nat :=
  others.foldl (fun next i => setAt next i 0) prev

/-- The deferred win check of `correctPickMulti`:
`objectiveLines.every((line, i) => lineProgress[i] + inc >= line.length)` over the
snapshot; `undefined + inc` is `NaN`, which fails the comparison. -/
def winCheck (s : State) (lineIndexes : List Nat) : Bool :=
  (List.range s.objectiveLines.length).all (fun i =>
    let inc := if lineIndexes.contains i then 1 else 0
    match s.lineProgress[i]? with
    | none => false
    | some v => decide (v + inc ≥ (lineOf s.objectiveLines i).length))

/-- The cohort branch of `correctPickMulti` on the pending state `p`, reading the
snapshot's `competeSet`. -/
def cohortStep (s p : State) (lineIndexes : List Nat) : State :=
  if lineIndexes.length > 1 then
    { p with competeSet := some (newSet lineIndexes) }
  else
    match s.competeSet, lineIndexes with
    | some cs, [survivor] =>
      if cs.contains survivor then
        let others := cs.filter (fun i => i ≠ survivor)
        { p with
          lineProgress :=
            if others.length > 0 then nullify p.lineProgress others else p.lineProgress
          competeSet := none }
      else p
    | _, _ => p

/-- The function `correctPickMulti(lineIndexes, r, c)`; `s` is the snapshot the handler
closed over, `p` the pending state when it is called. -/
def correctPickMulti (s p : State) (lineIndexes : List Nat) (r c : Nat) : State :=
  let p1 := { p with lineProgress := advanceAll p.lineProgress lineIndexes }
  let p2 := cohortStep s p1 lineIndexes
  let p3 := { p2 with
    activeLine := lineIndexes.getLast?
    lastPos := some (r, c)
    constraint := toggleConstraint s.constraint }
  if winCheck s lineIndexes then { p3 with win := true, running := false } else p3

/-- The function `doFail(msg)`. -/
def doFail (p : State) : State := { p with fail := true, running := false }

/-- The function `fault(msg, r, c)`; `s` is the snapshot, `p` the pending state. -/
def fault (s p : State) (r c : Nat) : State :=
  let nf := p.faults + 1
  let p1 := if nf ≥ FAULTS_MAX then doFail { p with faults := nf } else { p with faults := nf }
  let lp :=
    match s.activeLine with
    | none => p1.lineProgress
    | some a =>
      let ln := lineOf s.objectiveLines a
      let prog := progressOf p1.lineProgress a
      if prog > 0 ∧ prog < ln.length then setAt p1.lineProgress a 0 else p1.lineProgress
  { p1 with
    lineProgress := lp
    lastPos := some (r, c)
    constraint := toggleConstraint s.constraint }

/-- The divergence guard of `handlePick`, run when the click is allowed: a mid-progress
active line whose next token is not the clicked one is reset, and the active line and the
cohort are cleared. -/
def divergenceGuard (s : State) (token : Option Token) : State :=
  match s.activeLine with
  | none => s
  | some a =>
    let prog := progressOf s.lineProgress a
    let ln := lineOf s.objectiveLines a
    if (prog > 0 ∧ prog < ln.length) ∧ token ≠ ln[prog]? then
      { s with
        lineProgress := setAt s.lineProgress a 0
        activeLine := none
        competeSet := none }
    else s

/-- The function `handlePick(r, c)`.  Reading `grid[r][c]` with `r` outside the grid
throws before any update is queued, which leaves the state as it was. -/
def handlePick (s : State) (r c : Nat) : State :=
  if !s.running || s.win || s.fail then s
  else
    match s.grid[r]? with
    | none => s
    | some gridRow =>
      let token := gridRow[c]?
      let isAllowed := allowed s r c
      let p := if isAllowed then divergenceGuard s token else s
      if !isAllowed then s
      else
        let candidates := candidateLinesFor s token
        if candidates.length > 0 then correctPickMulti s p candidates r c
        else fault s p r c

/-- The function `start()`. -/
def start (s : State) : State :=
  match s.difficulty with
  | none => s
  | some _ =>
    { s with
      lineProgress := s.objectiveLines.map (fun _ => 0)
      activeLine := none
      running := true
      timeLeft := TIMER_SECONDS
      constraint := Constraint.topRow
      lastPos := none
      faults := 0
      win := false
      fail := false
      competeSet := none }

/-- The function `stop()`. -/
def stop (s : State) : State := { s with running := false }

/-- One firing of the timer: the interval exists only while
`running && !win && !fail`, it runs `setTimeLeft(t => t - 1)`, and the effect on
`timeLeft` then calls `doFail` when `timeLeft <= 0 && running`. -/
def tick (s : State) : State :=
  if !s.running || s.win || s.fail then s
  else
    let p := { s with timeLeft := s.timeLeft - 1 }
    if p.timeLeft ≤ 0 ∧ p.running then doFail p else p

/-- What can happen to a started session: a click on a cell or a timer firing. -/
inductive Event where
  | pick (r c : Nat)
  | tick
deriving DecidableEq

/-- The state after one event. -/
def step (s : State) (e : Event) : State :=
  match e with
  | Event.pick r c => handlePick s r c
  | Event.tick => tick s

/-- The state after a sequence of events, oldest first. -/
def run (s : State) (es : List Event) : State := es.foldl step s

/-- The states of a session: those reached from `start()`, pressed with a difficulty
selected, by picks and timer firings. -/
def Reachable (s : State) : Prop :=
  ∃ s0 : State, ∃ es : List Event, s0.difficulty.isSome = true ∧ s = run (start s0) es

/-- A session that is running and neither won nor failed. -/
def Running (s : State) : Prop := s.running = true ∧ s.win = false ∧ s.fail = false

/-- The token of cell `(r, c)`, when the cell is on the grid. -/
def tokenAt (g : Grid) (r c : Nat) : Option Token :=
  match g[r]? with
  | none => none
  | some gridRow => gridRow[c]?

/-- Line `i` is an objective line that is not done and whose next token is `t`. -/
def NeedsNext (s : State) (i : Nat) (t : Token) : Prop :=
  i < s.objectiveLines.length ∧
  progressOf s.lineProgress i < (lineOf s.objectiveLines i).length ∧
  (lineOf s.objectiveLines i)[progressOf s.lineProgress i]? = some t

/-- The active line `a` is mid-progress and its next token is not the clicked one. -/
def Diverges (s : State) (token : Option Token) (a : Nat) : Prop :=
  s.activeLine = some a ∧
  (progressOf s.lineProgress a > 0 ∧
    progressOf s.lineProgress a < (lineOf s.objectiveLines a).length) ∧
  token ≠ (lineOf s.objectiveLines a)[progressOf s.lineProgress a]?

/-- An Easy board after difficulty selection: the 2×2 grid `[[A1,C2],[E3,F4]]` with the
two length-2 lines `[A1,E3]` (from `(0,0)`, direction column) and `[E3,F4]` (from
`(1,0)`, direction row). -/
def easyBoard : State where
  difficulty := some Difficulty.easy
  grid := [["A1", "C2"], ["E3", "F4"]]
  objectiveLines := [["A1", "E3"], ["E3", "F4"]]
  running := false
  timeLeft := TIMER_SECONDS
  constraint := Constraint.topRow
  lastPos := none
  faults := 0
  activeLine := none
  lineProgress := [0, 0]
  win := false
  fail := false
  competeSet := none

instance (s : State) : Decidable (Running s) := by
  unfold Running
  infer_instance

instance (s : State) (i : Nat) (t : Token) : Decidable (NeedsNext s i t) := by
  unfold NeedsNext
  infer_instance

/-- The Easy board one pick into a session: `A1` at `(0,0)` has been taken. -/
def afterFirstPick : State := run (start easyBoard) [Event.pick 0 0]

/-- The Easy board two picks into a session: `A1` at `(0,0)`, then `E3` at `(1,0)`, which
both lines needed. -/
def afterSharedPick : State := run (start easyBoard) [Event.pick 0 0, Event.pick 1 0]

/-- A session on the same grid with the lines `[A1,F4]` and `[E3,C2]`, one pick in:
line 0 is active at progress 1 and needs `F4`. -/
def divergeBoard : State :=
  run (start { easyBoard with objectiveLines := [["A1", "F4"], ["E3", "C2"]] })
    [Event.pick 0 0]

/-- A session on the same grid with the single line `[A1,E3]`, one pick in. -/
def oneLineBoard : State :=
  run (start { easyBoard with objectiveLines := [["A1", "E3"]] }) [Event.pick 0 0]

/-- The Easy board four wrong picks into a session (`C2`, `F4`, `F4`, `F4`). -/
def fourFaults : State :=
  run (start easyBoard) [Event.pick 0 1, Event.pick 1 1, Event.pick 1 1, Event.pick 1 1]

/-- The fault counter respects the cap, and is below it while the session runs. -/
def FaultsBounded (s : State) : Prop :=
  s.faults ≤ FAULTS_MAX ∧ (s.running = true → s.faults < FAULTS_MAX)

/-- One progress entry per objective line, and cohort members are line indexes: what
`selectDifficulty`, `newSetup` and `start` establish with `o.map(() => 0)` and a null
cohort. -/
def WellFormed (s : State) : Prop :=
  s.lineProgress.length = s.objectiveLines.length ∧
  ∀ cs, s.competeSet = some cs → ∀ k ∈ cs, k < s.objectiveLines.length

/-- The scenario board: the grid `[[A1,C2],[E3,F4]]` with the single objective line
`[A1,F4]`, at rest. -/
def scenarioBoard : State :=
  { easyBoard with objectiveLines := [["A1", "F4"]], lineProgress := [0] }

/-- The scenario board one tick before the timer runs out. -/
def lastSecond : State := { start scenarioBoard with timeLeft := 1 }

/-! ## The objective-line generator

`generateObjectiveLines` draws from `Math.random()`.  The model reads the draws from a
stream `ω : Nat → Nat`, call number `k` consuming `ω k`: a call `rand(n)` with `n > 0`
yields `ω k % n`, any value of `0 .. n-1`, and a test `Math.random() < p` yields
`ω k % 2 = 1`, either outcome.  Every function takes the position `k` of its first draw
and returns the position after its last one.  A thrown `TypeError` is `none`; a token is
`Option Token`, `none` being the `undefined` that a read past the end of a row gives. -/

/-- The values of `dir` and `startDir`: `"column"` and `"row"`. -/
inductive Dir where
  | column
  | row
deriving DecidableEq

/-- The flip `dir === "column" ? "row" : "column"`. -/
def flipDir (d : Dir) : Dir :=
  match d with
  | Dir.column => Dir.row
  | Dir.row => Dir.column

/-- The `rows` of `generateObjectiveLines`: `grid.length`. -/
def gridRows (grid : Grid) : Nat := grid.length

/-- The `cols` of `generateObjectiveLines`: `grid[0].length`, read once the grid is known
to have a first row. -/
def gridCols (grid : Grid) : Nat := (grid.getD 0 []).length

/-- The helper `colCoords(c)`: the cells `[r, c]` for `r` in `0 .. rows-1`. -/
def colCoords (grid : Grid) (c : Nat) : List (Nat × Nat) :=
  (List.range (gridRows grid)).map (fun r => (r, c))

/-- The helper `rowCoords(r)`: the cells `[r, c]` for `c` in `0 .. cols-1`. -/
def rowCoords (grid : Grid) (r : Nat) : List (Nat × Nat) :=
  (List.range (gridCols grid)).map (fun c => (r, c))

/-- The expression `dir === "column" ? colCoords(c) : rowCoords(r)`. -/
def lineCoords (grid : Grid) (dir : Dir) (r c : Nat) : List (Nat × Nat) :=
  if dir = Dir.column then colCoords grid c else rowCoords grid r

/-- The helper `rand(n) = Math.floor(Math.random() * n)` on draw `k`. -/
def rand (ω : Nat → Nat) (k n : Nat) : Nat := if n = 0 then 0 else ω k % n

/-- The outcome of a test `Math.random() < p` on draw `k`. -/
def coin (ω : Nat → Nat) (k : Nat) : Bool := decide (ω k % 2 = 1)

/-- The helper `choice(arr) = arr[rand(arr.length)]` on draw `k`, destructured as a cell
`[r, c]`: on an empty array the destructuring of `undefined` throws. -/
def choice (ω : Nat → Nat) (k : Nat) (arr : List (Nat × Nat)) : Option (Nat × Nat) :=
  arr[rand ω k arr.length]?

/-- The helper `lineHasToken(dir, r, c, token)`. -/
def lineHasToken (grid : Grid) (dir : Dir) (r c : Nat) (token : Option Token) : Bool :=
  if dir = Dir.column then (colCoords grid c).any (fun p => decide (tokenAt grid p.1 p.2 = token))
  else (rowCoords grid r).any (fun p => decide (tokenAt grid p.1 p.2 = token))

/-- The loop of `buildSimpleConnectedLine` with `n` iterations left: pick a cell on the
current line, push its token, flip the direction. -/
def simpleLoop (grid : Grid) (ω : Nat → Nat) :
    Nat → Nat → Nat → Nat → Dir → List (Option Token) → Option (List (Option Token) × Nat)
  | 0, k, _, _, _, tokens => some (tokens, k)
  | n + 1, k, r, c, dir, tokens =>
    match choice ω k (lineCoords grid dir r c) with
    | none => none
    | some q =>
      simpleLoop grid ω n (k + 1) q.1 q.2 (flipDir dir) (tokens ++ [tokenAt grid q.1 q.2])

/-- The function `buildSimpleConnectedLine(r0, c0, len, startDir)`, drawing from position
`k`; the loop `for (let i = 1; i < len; i++)` runs `len - 1` times.  The first read
`grid[r0][c0]` throws when `r0` is not a row; every later read is on a row of the grid. -/
def buildSimpleConnectedLine (grid : Grid) (ω : Nat → Nat) (k r0 c0 len : Nat)
    (startDir : Dir) : Option (List (Option Token) × Nat) :=
  match grid[r0]? with
  | none => none
  | some gridRow => simpleLoop grid ω (len - 1) k r0 c0 startDir [gridRow[c0]?]

/-- The array assignment `tokens[i] = v`, past the end leaving holes that read as
`undefined`. -/
def setTok (xs : List (Option Token)) (i : Nat) (v : Option Token) : List (Option Token) :=
  if i < xs.length then xs.set i v
  else xs ++ List.replicate (i - xs.length) none ++ [v]

/-- The locals of one attempt of `buildTrickyLine`, with the position in the random
stream. -/
structure Walk where
  r : Nat
  c : Nat
  dir : Dir
  tokens : List (Option Token)
  trickyCount : Nat
  pos : Nat

/-- One pass through the body of the inner loop of `buildTrickyLine` at index `i`; returns
the locals and the value of `i` at the end of the body (`i + 1` when the look-ahead
branch ran its own `i++`). The test `i < len - 1` is `i + 1 < len`. -/
def attemptStep (grid : Grid) (ω : Nat → Nat) (len i : Nat) (w : Walk) : Option (Walk × Nat) :=
  let candidates := lineCoords grid w.dir w.r w.c
  match choice ω w.pos candidates with
  | none => none
  | some q =>
    let tok := tokenAt grid q.1 q.2
    let tokens := w.tokens ++ [tok]
    let nextDir := flipDir w.dir
    if i + 1 < len then
      let nextLineCoords := lineCoords grid nextDir q.1 q.2
      match choice ω (w.pos + 1) nextLineCoords with
      | none => none
      | some first =>
        let dupes := nextLineCoords.filter (fun p => decide (tokenAt grid p.1 p.2 = tok))
        let redraw := coin ω (w.pos + 2) && decide (dupes.length > 0)
        match (if redraw then choice ω (w.pos + 3) dupes else some first) with
        | none => none
        | some sq =>
          let futureToken := tokenAt grid sq.1 sq.2
          let sameTokenCells := candidates.filter (fun p => decide (tokenAt grid p.1 p.2 = tok))
          let decoys := sameTokenCells.filter
            (fun p => !lineHasToken grid nextDir p.1 p.2 futureToken)
          some ({ r := sq.1, c := sq.2, dir := nextDir,
                  tokens := setTok tokens (i + 1) futureToken,
                  trickyCount :=
                    if decoys.length > 0 then w.trickyCount + 1 else w.trickyCount,
                  pos := if redraw then w.pos + 4 else w.pos + 3 }, i + 1)
    else
      some ({ w with r := q.1, c := q.2, tokens := tokens, pos := w.pos + 1 }, i)

/-- The inner loop `for (let i = 1; i < len; i++)` of `buildTrickyLine` from index `i`.
The first argument bounds the number of passes; `i` grows on every pass, so `len` passes
are never used up while `i < len`. -/
def attemptLoop (grid : Grid) (ω : Nat → Nat) (len : Nat) : Nat → Nat → Walk → Option Walk
  | 0, _, w => some w
  | fuel + 1, i, w =>
    if i < len then
      match attemptStep grid ω len i w with
      | none => none
      | some (w2, i2) => attemptLoop grid ω len fuel (i2 + 1) w2
    else some w

/-- One attempt of `buildTrickyLine`, up to the end of its inner loop. -/
def attempt (grid : Grid) (ω : Nat → Nat) (k startR startC len : Nat) (startDir : Dir) :
    Option Walk :=
  match grid[startR]? with
  | none => none
  | some gridRow =>
    attemptLoop grid ω len len 1
      { r := startR, c := startC, dir := startDir, tokens := [gridRow[startC]?],
        trickyCount := 0, pos := k }

/-- The statement `if (tokens.length > len) tokens.length = len`. -/
def truncateTo (tokens : List (Option Token)) (len : Nat) : List (Option Token) :=
  if tokens.length > len then tokens.take len else tokens

/-- The attempt loop of `buildTrickyLine` with `n` attempts left, then the fallback. -/
def triesLoop (grid : Grid) (ω : Nat → Nat) (startR startC len : Nat) (startDir : Dir)
    (minTricky : Nat) : Nat → Nat → Option (List (Option Token) × Nat)
  | 0, k => buildSimpleConnectedLine grid ω k startR startC len startDir
  | n + 1, k =>
    match attempt grid ω k startR startC len startDir with
    | none => none
    | some w =>
      if w.trickyCount ≥ minTricky ∧ (truncateTo w.tokens len).length = len then
        some (truncateTo w.tokens len, w.pos)
      else triesLoop grid ω startR startC len startDir minTricky n w.pos

/-- The function `buildTrickyLine(startR, startC, len, startDir, minTricky, tries)`,
drawing from position `k`. -/
def buildTrickyLine (grid : Grid) (ω : Nat → Nat) (k startR startC len : Nat)
    (startDir : Dir) (minTricky tries : Nat) : Option (List (Option Token) × Nat) :=
  triesLoop grid ω startR startC len startDir minTricky tries k

/-- The default `minTricky = Math.ceil(len / 2)`. -/
def defaultMinTricky (len : Nat) : Nat := (len + 1) / 2

/-- The default `tries = 500`. -/
def defaultTries : Nat := 500

/-- The argument `lenOrRange`: a number, or a range `[min, max]`. -/
inductive LenSpec where
  | fixed (n : Nat)
  | range (lo hi : Nat)
deriving DecidableEq

/-- The helper `pickLen()` on draw `k`: the length and the position after it.  A range
is read with `min <= max`. -/
def pickLen (ω : Nat → Nat) (k : Nat) (lenOrRange : LenSpec) : Nat × Nat :=
  match lenOrRange with
  | LenSpec.fixed n => (n, k)
  | LenSpec.range lo hi => (rand ω k (hi - lo + 1) + lo, k + 1)

/-- The loop `for (let i = 1; i < numLines; i++)` of `generateObjectiveLines` with `n`
iterations left. -/
def linesLoop (grid : Grid) (ω : Nat → Nat) (lenOrRange : LenSpec) :
    Nat → Nat → List (List (Option Token)) → Option (List (List (Option Token)))
  | 0, _, lines => some lines
  | n + 1, k, lines =>
    let r0 := rand ω k (gridRows grid)
    let c0b := rand ω (k + 1) (gridCols grid)
    let startDir := if coin ω (k + 2) then Dir.column else Dir.row
    let len := (pickLen ω (k + 3) lenOrRange).1
    let k2 := (pickLen ω (k + 3) lenOrRange).2
    match buildTrickyLine grid ω k2 r0 c0b len startDir (defaultMinTricky len) defaultTries with
    | none => none
    | some (ln, k3) => linesLoop grid ω lenOrRange n k3 (lines ++ [ln])

/-- The function `generateObjectiveLines(grid, lenOrRange, numLines)`, drawing from
position `k`.  On an empty grid `grid[0].length` throws. -/
def generateObjectiveLines (grid : Grid) (ω : Nat → Nat) (k : Nat) (lenOrRange : LenSpec)
    (numLines : Nat) : Option (List (List (Option Token))) :=
  match grid with
  | [] => none
  | _ :: _ =>
    let c0 := rand ω k (gridCols grid)
    let len := (pickLen ω (k + 1) lenOrRange).1
    let k2 := (pickLen ω (k + 1) lenOrRange).2
    match buildTrickyLine grid ω k2 0 c0 len Dir.column (defaultMinTricky len) defaultTries with
    | none => none
    | some (ln, k3) => linesLoop grid ω lenOrRange (numLines - 1) k3 [ln]

/-- The grid has a first row, and that row has a first cell. -/
def HasCell (grid : Grid) : Prop := 0 < gridRows grid ∧ 0 < gridCols grid

/-- Every row is as long as the first one. -/
def Rectangular (grid : Grid) : Prop := ∀ gridRow ∈ grid, gridRow.length = gridCols grid

/-- The cell is on the grid. -/
def InGrid (grid : Grid) (p : Nat × Nat) : Prop := p.1 < gridRows grid ∧ p.2 < gridCols grid

/-- Cell `q` is on the line through `p` in direction `d`: same column for `column`, same
row for `row`. -/
def OnLine (d : Dir) (p q : Nat × Nat) : Prop :=
  match d with
  | Dir.column => q.2 = p.2
  | Dir.row => q.1 = p.1

/-- The direction of step `k` of a walk that starts in direction `d0` and flips after
every step. -/
def dirAt (d0 : Dir) (k : Nat) : Dir := if k % 2 = 0 then d0 else flipDir d0

/-- The tokens `ts` are read off a walk that leaves cell `p` in direction `d`, moves
along the current line to a cell of the grid at each step and flips the direction after
it. -/
def Follows (grid : Grid) : Nat × Nat → Dir → List (Option Token) → Prop
  | _, _, [] => True
  | p, d, t :: ts =>
    ∃ q, InGrid grid q ∧ OnLine d p q ∧ tokenAt grid q.1 q.2 = t ∧ Follows grid q (flipDir d) ts

/-- The sequence `t` can be traced from `(startR, startC)`: there are cells of the grid
`p_0 = (startR, startC), p_1, ...`, one per token, with `grid[p_k] = t[k]`, and `p_(k+1)`
on the line through `p_k` in the direction of step `k`. -/
def Traceable (grid : Grid) (startR startC : Nat) (d0 : Dir) (t : List (Option Token)) : Prop :=
  ∃ path : List (Nat × Nat),
    path.length = t.length ∧
    path[0]? = some (startR, startC) ∧
    (∀ (k : Nat) (p : Nat × Nat), path[k]? = some p →
      InGrid grid p ∧ ∃ tok, tokenAt grid p.1 p.2 = some tok ∧ t[k]? = some (some tok)) ∧
    (∀ (k : Nat) (p q : Nat × Nat), path[k]? = some p → path[k + 1]? = some q →
      OnLine (dirAt d0 k) p q)

/-- A length spec as the callers give it: a number, or a range with `min <= max`. -/
def LenSpec.Valid (spec : LenSpec) : Prop :=
  match spec with
  | LenSpec.fixed _ => True
  | LenSpec.range lo hi => lo ≤ hi

/-- A length spec that only yields lengths of at least 1: a number `n >= 1`, or a range
with `1 <= min <= max`.  Every difficulty passes one. -/
def LenSpec.Positive (spec : LenSpec) : Prop :=
  match spec with
  | LenSpec.fixed n => 1 ≤ n
  | LenSpec.range lo hi => 1 ≤ lo ∧ lo ≤ hi

/-- A 2×2 grid for the generator. -/
def demoGrid : Grid := [["A1", "C2"], ["E3", "F4"]]

/-- The active line, when there is one, is an objective line with progress above zero. -/
def ActiveOk (s : State) : Prop :=
  ∀ a, s.activeLine = some a → a < s.objectiveLines.length ∧ progressOf s.lineProgress a > 0

/-- No line has more progress than it has tokens. -/
def ProgressBounded (s : State) : Prop :=
  ∀ i, progressOf s.lineProgress i ≤ (lineOf s.objectiveLines i).length

/-- A Medium board as `selectDifficulty('medium')` can produce it: a 5×5 grid of distinct
tokens and four lines of length 3.  Line 0 is read from `(0,1)` down its column and then
along a row, line 1 from `(4,4)` along its row and then a column, lines 2 and 3 both from
`(0,0)` down the column to `(1,0)` and along the row to `(1,1)`. -/
def mediumBoard : State where
  difficulty := some Difficulty.medium
  grid := [["A1", "C2", "E5", "F6", "X7"],
           ["E3", "F4", "85", "A2", "C3"],
           ["12", "X5", "34", "87", "56"],
           ["A4", "C5", "E6", "F7", "X8"],
           ["78", "91", "A9", "C9", "E9"]]
  objectiveLines := [["C2", "X5", "87"], ["E9", "78", "A4"],
                     ["A1", "E3", "F4"], ["A1", "E3", "F4"]]
  running := false
  timeLeft := TIMER_SECONDS
  constraint := Constraint.topRow
  lastPos := none
  faults := 0
  activeLine := none
  lineProgress := [0, 0, 0, 0]
  win := false
  fail := false
  competeSet := none

/-- The Medium board three picks into a session: `(0,0)`, `(1,0)`, `(1,1)` have completed
lines 2 and 3 together. -/
def mediumAfterShared : State :=
  run (start mediumBoard) [Event.pick 0 0, Event.pick 1 0, Event.pick 1 1]

/-- The active line is mid-progress and is not line `k`. -/
def MidOther (s : State) (k : Nat) : Prop :=
  ∃ a, s.activeLine = some a ∧ a ≠ k ∧ progressOf s.lineProgress a > 0 ∧
    progressOf s.lineProgress a < (lineOf s.objectiveLines a).length

/-- The pick `(r, c)` is accepted in the running state `s` and advances together exactly
the lines `cs`, two or more: they are its candidate lines and each goes up by one. -/
def AdvancedTogether (s : State) (r c : Nat) (cs : List Nat) : Prop :=
  Running s ∧ allowed s r c = true ∧
  cs = candidateLinesFor s (tokenAt s.grid r c) ∧ 2 ≤ cs.length ∧
  ∀ i ∈ cs, progressOf (handlePick s r c).lineProgress i = progressOf s.lineProgress i + 1

/-- The number of passes of the inner loop of an attempt that take the look-ahead branch
(`i < len - 1`), counted along `attemptLoop`. -/
def lookAheadSteps (grid : Grid) (ω : Nat → Nat) (len : Nat) : Nat → Nat → Walk → Nat
  | 0, _, _ => 0
  | fuel + 1, i, w =>
    if i < len then
      match attemptStep grid ω len i w with
      | none => 0
      | some (w2, i2) =>
        (if i + 1 < len then 1 else 0) + lookAheadSteps grid ω len fuel (i2 + 1) w2
    else 0

/-- The locals of an attempt of `buildTrickyLine` when its inner loop starts. -/
def attemptStart (grid : Grid) (k startR startC : Nat) (startDir : Dir) : Walk :=
  { r := startR, c := startC, dir := startDir, tokens := [tokenAt grid startR startC],
    trickyCount := 0, pos := k }

/-- The position in the random stream after `n` attempts of `buildTrickyLine` that start
at position `k`. -/
def positionAfterAttempts (grid : Grid) (ω : Nat → Nat) (startR startC len : Nat)
    (startDir : Dir) : Nat → Nat → Nat
  | 0, k => k
  | n + 1, k =>
    match attempt grid ω k startR startC len startDir with
    | none => k
    | some w => positionAfterAttempts grid ω startR startC len startDir n w.pos

/-- No pick of the event sequence `es`, run from state `s`, advances two or more lines
together. -/
def NoSharedAdvance : State → List Event → Prop
  | _, [] => True
  | s, e :: es =>
    (match e with
      | Event.pick r c => ∀ cs, ¬ AdvancedTogether s r c cs
      | Event.tick => True) ∧
    NoSharedAdvance (step s e) es

/-! ## Array reads and writes -/

theorem progressOf_setAt (xs : List Nat) (i v j : Nat) :
    progressOf (setAt xs i v) j = if j = i then v else progressOf xs j := by
  unfold progressOf setAt
  by_cases h : i < xs.length
  · simp only [h, if_true, List.getD_eq_getElem?_getD, List.getElem?_set]
    by_cases hij : j = i
    · subst hij; simp [h]
    · have : ¬ i = j := fun e => hij e.symm
      simp [hij, this]
  · simp only [h, if_false, List.getD_eq_getElem?_getD]
    have hle : xs.length ≤ i := Nat.le_of_not_lt h
    by_cases hij : j = i
    · subst hij
      rw [List.getElem?_append_right (by simp; omega)]
      simp
      have : j - (xs.length + (j - xs.length)) = 0 := by omega
      simp [this]
    · simp only [hij, if_false]
      by_cases hj : j < xs.length
      · rw [List.append_assoc, List.getElem?_append_left hj]
      · have hjl : xs.length ≤ j := Nat.le_of_not_lt hj
        rw [List.getElem?_eq_none (l := xs) hjl]
        by_cases hji : j < i
        · rw [List.getElem?_append_left (by simp; omega), List.getElem?_append_right hjl,
            List.getElem?_replicate]
          split <;> rfl
        · rw [List.getElem?_eq_none]
          simp; omega

theorem progressOf_advanceAll (idxs : List Nat) (hnd : idxs.Nodup) (prev : List Nat) (j : Nat) :
    progressOf (advanceAll prev idxs) j = progressOf prev j + if j ∈ idxs then 1 else 0 := by
  induction idxs generalizing prev with
  | nil => simp [advanceAll]
  | cons a l ih =>
    have hnd2 := List.nodup_cons.mp hnd
    have hstep : advanceAll prev (a :: l)
        = advanceAll (setAt prev a (progressOf prev a + 1)) l := rfl
    rw [hstep, ih hnd2.2, progressOf_setAt]
    by_cases hja : j = a
    · subst hja
      simp [hnd2.1]
    · simp [hja]

theorem progressOf_nullify (others : List Nat) (prev : List Nat) (j : Nat) :
    progressOf (nullify prev others) j = if j ∈ others then 0 else progressOf prev j := by
  induction others generalizing prev with
  | nil => simp [nullify]
  | cons a l ih =>
    have hstep : nullify prev (a :: l) = nullify (setAt prev a 0) l := rfl
    rw [hstep, ih, progressOf_setAt]
    by_cases hja : j = a
    · subst hja
      simp
    · by_cases hjl : j ∈ l <;> simp [hja, hjl]

theorem newSet_of_nodup (l : List Nat) (hnd : l.Nodup) : newSet l = l := by
  induction l with
  | nil => rfl
  | cons a l ih =>
    have hnd2 := List.nodup_cons.mp hnd
    simp only [newSet, ih hnd2.2]
    congr 1
    rw [List.filter_eq_self]
    intro y hy
    have : y ≠ a := fun e => hnd2.1 (e ▸ hy)
    simpa using this

/-! ## The candidate lines -/

theorem mem_candidateLinesFor (s : State) (token : Option Token) (i : Nat) :
    i ∈ candidateLinesFor s token ↔
      i < s.objectiveLines.length ∧
      progressOf s.lineProgress i < (lineOf s.objectiveLines i).length ∧
      (lineOf s.objectiveLines i)[progressOf s.lineProgress i]? = token := by
  simp [candidateLinesFor, isCandidate]

theorem mem_candidateLinesFor_some (s : State) (t : Token) (i : Nat) :
    i ∈ candidateLinesFor s (some t) ↔ NeedsNext s i t :=
  mem_candidateLinesFor s (some t) i

theorem candidateLinesFor_nodup (s : State) (token : Option Token) :
    (candidateLinesFor s token).Nodup :=
  (List.nodup_range _).filter _

theorem candidateLinesFor_sorted (s : State) (token : Option Token) :
    (candidateLinesFor s token).Sorted (fun a b => a < b) :=
  (List.sorted_lt_range _).filter _

theorem candidateLinesFor_eq_nil (s : State) (token : Option Token)
    (h : ∀ i, i ∉ candidateLinesFor s token) : candidateLinesFor s token = [] :=
  List.eq_nil_iff_forall_not_mem.mpr h

theorem candidateLinesFor_eq_pair (s : State) (token : Option Token) (i j : Nat) (hij : i < j)
    (h : ∀ k, k ∈ candidateLinesFor s token ↔ k = i ∨ k = j) :
    candidateLinesFor s token = [i, j] := by
  apply List.eq_of_perm_of_sorted _ (candidateLinesFor_sorted s token)
  · simp [List.Sorted, hij]
  · rw [List.perm_ext_iff_of_nodup (candidateLinesFor_nodup s token)]
    · intro k
      rw [h k]
      simp
    · simp [Nat.ne_of_lt hij]

theorem candidateLinesFor_eq_single (s : State) (token : Option Token) (i : Nat)
    (h : ∀ k, k ∈ candidateLinesFor s token ↔ k = i) :
    candidateLinesFor s token = [i] := by
  apply List.eq_of_perm_of_sorted _ (candidateLinesFor_sorted s token)
  · simp [List.Sorted]
  · rw [List.perm_ext_iff_of_nodup (candidateLinesFor_nodup s token)]
    · intro k
      rw [h k]
      simp
    · simp

/-! ## Unfolding one pick -/

theorem handlePick_of_allowed (s : State) (r c : Nat) (T : Token) (hrun : Running s)
    (htok : tokenAt s.grid r c = some T) (hall : allowed s r c = true) :
    handlePick s r c =
      if (candidateLinesFor s (some T)).length > 0 then
        correctPickMulti s (divergenceGuard s (some T)) (candidateLinesFor s (some T)) r c
      else fault s (divergenceGuard s (some T)) r c := by
  obtain ⟨h1, h2, h3⟩ := hrun
  unfold tokenAt at htok
  unfold handlePick
  cases hg : s.grid[r]? with
  | none => simp [hg] at htok
  | some gridRow =>
    simp only [hg] at htok
    simp only [h1, h2, h3, hall, htok, Bool.not_true, Bool.or_false, Bool.false_eq_true,
      if_false, if_true]

theorem divergenceGuard_of_diverges (s : State) (token : Option Token) (a : Nat)
    (h : Diverges s token a) :
    divergenceGuard s token =
      { s with lineProgress := setAt s.lineProgress a 0, activeLine := none,
               competeSet := none } := by
  obtain ⟨ha, hp, ht⟩ := h
  unfold divergenceGuard
  simp only [ha]
  rw [if_pos ⟨hp, ht⟩]

theorem divergenceGuard_of_not_diverges (s : State) (token : Option Token)
    (h : ∀ a, ¬ Diverges s token a) : divergenceGuard s token = s := by
  unfold divergenceGuard
  cases ha : s.activeLine with
  | none => rfl
  | some a =>
    simp only
    rw [if_neg]
    intro hc
    exact h a ⟨ha, hc.1, hc.2⟩

theorem diverges_or_not (s : State) (token : Option Token) :
    (∃ a, Diverges s token a) ∨ ∀ a, ¬ Diverges s token a := by
  by_cases h : ∃ a, Diverges s token a
  · exact Or.inl h
  · exact Or.inr (fun a ha => h ⟨a, ha⟩)

theorem not_diverges_of_mem (s : State) (token : Option Token) (k : Nat)
    (hk : k ∈ candidateLinesFor s token) : ¬ Diverges s token k := by
  intro hd
  exact hd.2.2 ((mem_candidateLinesFor s token k).mp hk).2.2.symm

theorem divergenceGuard_faults (s : State) (token : Option Token) :
    (divergenceGuard s token).faults = s.faults := by
  rcases diverges_or_not s token with ⟨a, h⟩ | h
  · rw [divergenceGuard_of_diverges s token a h]
  · rw [divergenceGuard_of_not_diverges s token h]

theorem divergenceGuard_flags (s : State) (token : Option Token) :
    (divergenceGuard s token).running = s.running ∧
    (divergenceGuard s token).win = s.win ∧ (divergenceGuard s token).fail = s.fail := by
  rcases diverges_or_not s token with ⟨a, h⟩ | h
  · rw [divergenceGuard_of_diverges s token a h]
    exact ⟨rfl, rfl, rfl⟩
  · rw [divergenceGuard_of_not_diverges s token h]
    exact ⟨rfl, rfl, rfl⟩

theorem divergenceGuard_progress_zero (s : State) (token : Option Token) (a : Nat)
    (h : Diverges s token a) : progressOf (divergenceGuard s token).lineProgress a = 0 := by
  rw [divergenceGuard_of_diverges s token a h]
  simp [progressOf_setAt]

theorem divergenceGuard_progress_same (s : State) (token : Option Token) (k : Nat)
    (h : ¬ Diverges s token k) :
    progressOf (divergenceGuard s token).lineProgress k = progressOf s.lineProgress k := by
  rcases diverges_or_not s token with ⟨a, ha⟩ | hn
  · rw [divergenceGuard_of_diverges s token a ha]
    have hka : k ≠ a := fun e => h (e ▸ ha)
    simp [progressOf_setAt, hka]
  · rw [divergenceGuard_of_not_diverges s token hn]

theorem divergenceGuard_progress_cases (s : State) (token : Option Token) (k : Nat) :
    progressOf (divergenceGuard s token).lineProgress k = progressOf s.lineProgress k ∨
    progressOf (divergenceGuard s token).lineProgress k = 0 := by
  by_cases h : Diverges s token k
  · exact Or.inr (divergenceGuard_progress_zero s token k h)
  · exact Or.inl (divergenceGuard_progress_same s token k h)

/-! ## The advance path -/

theorem cohortStep_progress_of_mem (s p : State) (l : List Nat) (k : Nat) (hk : k ∈ l) :
    progressOf (cohortStep s p l).lineProgress k = progressOf p.lineProgress k := by
  unfold cohortStep
  split
  · rfl
  · split
    · have hks := List.mem_singleton.mp hk
      split
      · simp only
        split
        · rw [progressOf_nullify]
          simp [hks]
        · rfl
      · rfl
    · rfl

theorem cohortStep_progress_cases (s p : State) (l : List Nat) (k : Nat) :
    progressOf (cohortStep s p l).lineProgress k = progressOf p.lineProgress k ∨
    progressOf (cohortStep s p l).lineProgress k = 0 := by
  unfold cohortStep
  split
  · exact Or.inl rfl
  · split
    · split
      · simp only
        split
        · rw [progressOf_nullify]
          split
          · exact Or.inr rfl
          · exact Or.inl rfl
        · exact Or.inl rfl
      · exact Or.inl rfl
    · exact Or.inl rfl

theorem cohortStep_survivor (s p : State) (cs : List Nat) (i j : Nat)
    (hcs : s.competeSet = some cs) (hi : i ∈ cs) (hj : j ∈ cs) (hji : j ≠ i) :
    progressOf (cohortStep s p [i]).lineProgress j = 0 ∧
    (cohortStep s p [i]).competeSet = none := by
  unfold cohortStep
  have hlen : ¬ ([i] : List Nat).length > 1 := by simp
  rw [if_neg hlen]
  simp only [hcs]
  have hc : cs.contains i = true := by simpa using hi
  rw [if_pos hc]
  have hmem : j ∈ cs.filter (fun x => x ≠ i) := by
    simp [List.mem_filter, hj, hji]
  have hpos : (cs.filter (fun x => x ≠ i)).length > 0 := List.length_pos_of_mem hmem
  constructor
  · simp only [if_pos hpos]
    rw [progressOf_nullify]
    simp only [hmem, if_true]
  · rfl

theorem cohortStep_pair (s p : State) (l : List Nat) (hl : l.length > 1) :
    (cohortStep s p l).competeSet = some (newSet l) ∧
    (cohortStep s p l).lineProgress = p.lineProgress := by
  unfold cohortStep
  rw [if_pos hl]
  exact ⟨rfl, rfl⟩

theorem cohortStep_frame (s p : State) (l : List Nat) :
    (cohortStep s p l).faults = p.faults ∧ (cohortStep s p l).running = p.running ∧
    (cohortStep s p l).win = p.win ∧ (cohortStep s p l).fail = p.fail := by
  unfold cohortStep
  split
  · exact ⟨rfl, rfl, rfl, rfl⟩
  · split
    · split
      · exact ⟨rfl, rfl, rfl, rfl⟩
      · exact ⟨rfl, rfl, rfl, rfl⟩
    · exact ⟨rfl, rfl, rfl, rfl⟩

theorem correctPickMulti_lineProgress (s p : State) (l : List Nat) (r c : Nat) :
    (correctPickMulti s p l r c).lineProgress =
      (cohortStep s { p with lineProgress := advanceAll p.lineProgress l } l).lineProgress := by
  unfold correctPickMulti
  simp only
  split <;> rfl

theorem correctPickMulti_competeSet (s p : State) (l : List Nat) (r c : Nat) :
    (correctPickMulti s p l r c).competeSet =
      (cohortStep s { p with lineProgress := advanceAll p.lineProgress l } l).competeSet := by
  unfold correctPickMulti
  simp only
  split <;> rfl

theorem correctPickMulti_faults (s p : State) (l : List Nat) (r c : Nat) :
    (correctPickMulti s p l r c).faults = p.faults := by
  unfold correctPickMulti
  simp only
  split <;> exact (cohortStep_frame s _ l).1

theorem correctPickMulti_won (s p : State) (l : List Nat) (r c : Nat)
    (h : winCheck s l = true) :
    (correctPickMulti s p l r c).win = true ∧ (correctPickMulti s p l r c).running = false := by
  unfold correctPickMulti
  simp [h]

/-- After an advance, a candidate line stands one above its snapshot progress. -/
theorem advance_progress_of_mem (s : State) (token : Option Token) (r c k : Nat)
    (hk : k ∈ candidateLinesFor s token) :
    progressOf (correctPickMulti s (divergenceGuard s token)
        (candidateLinesFor s token) r c).lineProgress k
      = progressOf s.lineProgress k + 1 := by
  rw [correctPickMulti_lineProgress, cohortStep_progress_of_mem _ _ _ _ hk]
  simp only
  rw [progressOf_advanceAll _ (candidateLinesFor_nodup s token),
    divergenceGuard_progress_same s token k (not_diverges_of_mem s token k hk)]
  simp [hk]

/-- After an advance, a line that is not a candidate keeps its snapshot progress or is
at zero. -/
theorem advance_progress_of_not_mem (s : State) (token : Option Token) (r c k : Nat)
    (hk : k ∉ candidateLinesFor s token) :
    progressOf (correctPickMulti s (divergenceGuard s token)
        (candidateLinesFor s token) r c).lineProgress k = progressOf s.lineProgress k ∨
    progressOf (correctPickMulti s (divergenceGuard s token)
        (candidateLinesFor s token) r c).lineProgress k = 0 := by
  rw [correctPickMulti_lineProgress]
  have hadv : progressOf (advanceAll (divergenceGuard s token).lineProgress
      (candidateLinesFor s token)) k = progressOf (divergenceGuard s token).lineProgress k := by
    rw [progressOf_advanceAll _ (candidateLinesFor_nodup s token)]
    simp [hk]
  rcases cohortStep_progress_cases s
      { divergenceGuard s token with
        lineProgress := advanceAll (divergenceGuard s token).lineProgress
          (candidateLinesFor s token) } (candidateLinesFor s token) k with h | h
  · rw [h]
    simp only
    rw [hadv]
    exact divergenceGuard_progress_cases s token k
  · exact Or.inr h

/-! ## The fault path -/

theorem lt_length_of_lineOf (ls : List (List Token)) (a n : Nat)
    (h : n < (lineOf ls a).length) : a < ls.length := by
  by_contra hc
  have hnone : ls[a]? = none := List.getElem?_eq_none (Nat.le_of_not_lt hc)
  simp [lineOf, List.getD_eq_getElem?_getD, hnone] at h

theorem fault_faults (s p : State) (r c : Nat) : (fault s p r c).faults = p.faults + 1 := by
  unfold fault doFail
  simp only
  split <;> rfl

theorem fault_flags_at_cap (s p : State) (r c : Nat) (h : p.faults + 1 ≥ FAULTS_MAX) :
    (fault s p r c).fail = true ∧ (fault s p r c).running = false := by
  unfold fault doFail
  simp [if_pos h]

theorem fault_flags_below_cap (s p : State) (r c : Nat) (h : ¬ p.faults + 1 ≥ FAULTS_MAX) :
    (fault s p r c).running = p.running ∧ (fault s p r c).win = p.win ∧
    (fault s p r c).fail = p.fail := by
  unfold fault doFail
  simp [if_neg h]

theorem fault_lineProgress_none (s p : State) (r c : Nat) (h : s.activeLine = none) :
    (fault s p r c).lineProgress = p.lineProgress := by
  unfold fault doFail
  simp only [h]
  split <;> rfl

theorem fault_lineProgress_idle (s p : State) (r c a : Nat) (h : s.activeLine = some a)
    (hp : ¬ (progressOf p.lineProgress a > 0 ∧
      progressOf p.lineProgress a < (lineOf s.objectiveLines a).length)) :
    (fault s p r c).lineProgress = p.lineProgress := by
  unfold fault doFail
  simp only [h]
  split
  · simp only [if_neg hp]
  · simp only [if_neg hp]

theorem fault_lineProgress_reset (s p : State) (r c a : Nat) (h : s.activeLine = some a)
    (hp : progressOf p.lineProgress a > 0 ∧
      progressOf p.lineProgress a < (lineOf s.objectiveLines a).length) :
    (fault s p r c).lineProgress = setAt p.lineProgress a 0 := by
  unfold fault doFail
  simp only [h]
  split
  · simp only [if_pos hp]
  · simp only [if_pos hp]

/-- When no line takes the token, a mid-progress active line diverges. -/
theorem diverges_of_no_candidate (s : State) (T : Token) (a : Nat)
    (hnone : ∀ k, ¬ NeedsNext s k T) (ha : s.activeLine = some a)
    (hp : progressOf s.lineProgress a > 0 ∧
      progressOf s.lineProgress a < (lineOf s.objectiveLines a).length) :
    Diverges s (some T) a := by
  refine ⟨ha, hp, ?_⟩
  intro he
  exact hnone a ⟨lt_length_of_lineOf _ _ _ hp.2, hp.2, he.symm⟩

/-- On the fault path the progress array is the one the divergence guard left. -/
theorem fault_after_guard (s : State) (T : Token) (r c : Nat)
    (hnone : ∀ k, ¬ NeedsNext s k T) :
    (fault s (divergenceGuard s (some T)) r c).lineProgress
      = (divergenceGuard s (some T)).lineProgress := by
  cases ha : s.activeLine with
  | none => exact fault_lineProgress_none s _ r c ha
  | some a =>
    apply fault_lineProgress_idle s _ r c a ha
    intro hp
    by_cases hd : Diverges s (some T) a
    · rw [divergenceGuard_progress_zero s (some T) a hd] at hp
      exact absurd hp.1 (Nat.lt_irrefl 0)
    · rw [divergenceGuard_progress_same s (some T) a hd] at hp
      exact hd (diverges_of_no_candidate s T a hnone ha hp)

theorem handlePick_fault (s : State) (r c : Nat) (T : Token) (hrun : Running s)
    (htok : tokenAt s.grid r c = some T) (hall : allowed s r c = true)
    (hnone : ∀ k, ¬ NeedsNext s k T) :
    handlePick s r c = fault s (divergenceGuard s (some T)) r c := by
  rw [handlePick_of_allowed s r c T hrun htok hall]
  have hnil : candidateLinesFor s (some T) = [] :=
    candidateLinesFor_eq_nil s (some T)
      (fun k hk => hnone k ((mem_candidateLinesFor_some s T k).mp hk))
  simp [hnil]

theorem handlePick_advance (s : State) (r c : Nat) (T : Token) (k : Nat) (hrun : Running s)
    (htok : tokenAt s.grid r c = some T) (hall : allowed s r c = true)
    (hk : NeedsNext s k T) :
    handlePick s r c =
      correctPickMulti s (divergenceGuard s (some T)) (candidateLinesFor s (some T)) r c := by
  rw [handlePick_of_allowed s r c T hrun htok hall]
  have hmem : k ∈ candidateLinesFor s (some T) := (mem_candidateLinesFor_some s T k).mpr hk
  rw [if_pos (List.length_pos_of_mem hmem)]

/-! ## Single picks -/

theorem shared_advance_ordered (s : State) (r c i j : Nat) (T : Token)
    (hrun : Running s) (hall : allowed s r c = true) (htok : tokenAt s.grid r c = some T)
    (hij : i < j) (hex : ∀ k, NeedsNext s k T ↔ k = i ∨ k = j) :
    progressOf (handlePick s r c).lineProgress i = progressOf s.lineProgress i + 1 ∧
    progressOf (handlePick s r c).lineProgress j = progressOf s.lineProgress j + 1 ∧
    (handlePick s r c).competeSet = some [i, j] := by
  have hi : NeedsNext s i T := (hex i).mpr (Or.inl rfl)
  have hj : NeedsNext s j T := (hex j).mpr (Or.inr rfl)
  have hmi := (mem_candidateLinesFor_some s T i).mpr hi
  have hmj := (mem_candidateLinesFor_some s T j).mpr hj
  have hc : candidateLinesFor s (some T) = [i, j] :=
    candidateLinesFor_eq_pair s (some T) i j hij
      (fun k => (mem_candidateLinesFor_some s T k).trans (hex k))
  rw [handlePick_advance s r c T i hrun htok hall hi]
  refine ⟨advance_progress_of_mem s (some T) r c i hmi,
    advance_progress_of_mem s (some T) r c j hmj, ?_⟩
  rw [correctPickMulti_competeSet, hc]
  have hnd : ([i, j] : List Nat).Nodup := by simp [Nat.ne_of_lt hij]
  rw [(cohortStep_pair s _ [i, j] (by simp)).1, newSet_of_nodup _ hnd]

/-- C2, simultaneous advancement: in a running session, an allowed pick on a cell whose
token is the next-needed token of exactly the two distinct incomplete lines `i` and `j`
raises the progress of both by one and makes the cohort exactly those two lines. -/
theorem simultaneous_advancement (s : State) (r c i j : Nat) (T : Token)
    (hrun : Running s) (hall : allowed s r c = true) (htok : tokenAt s.grid r c = some T)
    (hij : i ≠ j) (hex : ∀ k, NeedsNext s k T ↔ k = i ∨ k = j) :
    progressOf (handlePick s r c).lineProgress i = progressOf s.lineProgress i + 1 ∧
    progressOf (handlePick s r c).lineProgress j = progressOf s.lineProgress j + 1 ∧
    (handlePick s r c).competeSet = some [min i j, max i j] := by
  rcases Nat.lt_or_gt_of_ne hij with h | h
  · have := shared_advance_ordered s r c i j T hrun hall htok h hex
    rw [Nat.min_eq_left (Nat.le_of_lt h), Nat.max_eq_right (Nat.le_of_lt h)]
    exact this
  · have := shared_advance_ordered s r c j i T hrun hall htok h
      (fun k => (hex k).trans Or.comm)
    rw [Nat.min_eq_right (Nat.le_of_lt h), Nat.max_eq_left (Nat.le_of_lt h)]
    exact ⟨this.2.1, this.1, this.2.2⟩

theorem simultaneous_advancement_witness :
    progressOf (handlePick afterFirstPick 1 0).lineProgress 0
      = progressOf afterFirstPick.lineProgress 0 + 1 ∧
    progressOf (handlePick afterFirstPick 1 0).lineProgress 1
      = progressOf afterFirstPick.lineProgress 1 + 1 ∧
    (handlePick afterFirstPick 1 0).competeSet = some [min 0 1, max 0 1] :=
  simultaneous_advancement afterFirstPick 1 0 0 1 "E3" (by decide) (by decide) (by decide)
    (by decide)
    (by
      intro k
      constructor
      · intro h
        have h1 : k < 2 := h.1
        omega
      · rintro (rfl | rfl) <;> decide)

/-- C3, cohort resolution: in a running session whose cohort contains the distinct lines
`i` and `j`, an allowed pick on a cell whose token is the next-needed token of `i` and of
no other incomplete line leaves the progress of `j` at zero and clears the cohort (and
line `i` has advanced by one). -/
theorem cohort_resolution (s : State) (r c i j : Nat) (T : Token) (cs : List Nat)
    (hrun : Running s) (hall : allowed s r c = true) (htok : tokenAt s.grid r c = some T)
    (hcs : s.competeSet = some cs) (hi : i ∈ cs) (hj : j ∈ cs) (hji : j ≠ i)
    (hex : ∀ k, NeedsNext s k T ↔ k = i) :
    progressOf (handlePick s r c).lineProgress j = 0 ∧
    (handlePick s r c).competeSet = none ∧
    progressOf (handlePick s r c).lineProgress i = progressOf s.lineProgress i + 1 := by
  have hni : NeedsNext s i T := (hex i).mpr rfl
  have hmi := (mem_candidateLinesFor_some s T i).mpr hni
  have hc : candidateLinesFor s (some T) = [i] :=
    candidateLinesFor_eq_single s (some T) i
      (fun k => (mem_candidateLinesFor_some s T k).trans (hex k))
  rw [handlePick_advance s r c T i hrun htok hall hni]
  refine ⟨?_, ?_, advance_progress_of_mem s (some T) r c i hmi⟩
  · rw [correctPickMulti_lineProgress, hc]
    exact (cohortStep_survivor s _ cs i j hcs hi hj hji).1
  · rw [correctPickMulti_competeSet, hc]
    exact (cohortStep_survivor s _ cs i j hcs hi hj hji).2

theorem cohort_resolution_witness :
    afterSharedPick.competeSet = some [0, 1] ∧
    progressOf (handlePick afterSharedPick 1 1).lineProgress 0 = 0 ∧
    (handlePick afterSharedPick 1 1).competeSet = none ∧
    progressOf (handlePick afterSharedPick 1 1).lineProgress 1
      = progressOf afterSharedPick.lineProgress 1 + 1 :=
  ⟨by decide,
    cohort_resolution afterSharedPick 1 1 1 0 "F4" [0, 1] (by decide) (by decide) (by decide)
      (by decide) (by decide) (by decide) (by decide)
      (by
        intro k
        constructor
        · intro h
          have h1 : k < 2 := h.1
          have h2 : k ≠ 0 := by
            rintro rfl
            revert h
            decide
          omega
        · rintro rfl
          decide)⟩

/-- C4, divergence is not a fault: in a running session whose active line `a` is
mid-progress, an allowed pick on a cell whose token differs from the next-needed token of
`a` but is the next-needed token of an incomplete line `k` sets the progress of `a` to
zero, leaves the fault counter as it was and raises the progress of `k` by one. -/
theorem divergence_not_fault (s : State) (r c a k : Nat) (T : Token)
    (hrun : Running s) (hall : allowed s r c = true) (htok : tokenAt s.grid r c = some T)
    (ha : s.activeLine = some a)
    (hprog : progressOf s.lineProgress a > 0 ∧
      progressOf s.lineProgress a < (lineOf s.objectiveLines a).length)
    (hne : (lineOf s.objectiveLines a)[progressOf s.lineProgress a]? ≠ some T)
    (hk : NeedsNext s k T) :
    progressOf (handlePick s r c).lineProgress a = 0 ∧
    (handlePick s r c).faults = s.faults ∧
    progressOf (handlePick s r c).lineProgress k = progressOf s.lineProgress k + 1 := by
  have hmk := (mem_candidateLinesFor_some s T k).mpr hk
  have hd : Diverges s (some T) a := ⟨ha, hprog, fun e => hne e.symm⟩
  have hna : a ∉ candidateLinesFor s (some T) := fun hm => not_diverges_of_mem s _ a hm hd
  rw [handlePick_advance s r c T k hrun htok hall hk]
  refine ⟨?_, ?_, advance_progress_of_mem s (some T) r c k hmk⟩
  · rw [correctPickMulti_lineProgress]
    rcases cohortStep_progress_cases s
        { divergenceGuard s (some T) with
          lineProgress := advanceAll (divergenceGuard s (some T)).lineProgress
            (candidateLinesFor s (some T)) } (candidateLinesFor s (some T)) a with h | h
    · rw [h]
      simp only
      rw [progressOf_advanceAll _ (candidateLinesFor_nodup s (some T)),
        divergenceGuard_progress_zero s (some T) a hd]
      simp [hna]
    · exact h
  · rw [correctPickMulti_faults, divergenceGuard_faults]

theorem divergence_not_fault_witness :
    divergeBoard.activeLine = some 0 ∧
    progressOf (handlePick divergeBoard 1 0).lineProgress 0 = 0 ∧
    (handlePick divergeBoard 1 0).faults = divergeBoard.faults ∧
    progressOf (handlePick divergeBoard 1 0).lineProgress 1
      = progressOf divergeBoard.lineProgress 1 + 1 :=
  ⟨by decide,
    divergence_not_fault divergeBoard 1 0 0 1 "E3" (by decide) (by decide) (by decide)
      (by decide) (by decide) (by decide) (by decide)⟩

/-- C5, fault targeting: in a running session, an allowed pick on a cell whose token is
the next-needed token of no incomplete line raises the fault counter by one, leaves the
progress of every line other than the active line as it was, sets the progress of the
active line to zero when it was mid-progress and leaves it as it was otherwise. -/
theorem fault_targeting (s : State) (r c : Nat) (T : Token)
    (hrun : Running s) (hall : allowed s r c = true) (htok : tokenAt s.grid r c = some T)
    (hnone : ∀ k, ¬ NeedsNext s k T) :
    (handlePick s r c).faults = s.faults + 1 ∧
    (∀ i, s.activeLine ≠ some i →
      progressOf (handlePick s r c).lineProgress i = progressOf s.lineProgress i) ∧
    (∀ a, s.activeLine = some a →
      ((progressOf s.lineProgress a > 0 ∧
          progressOf s.lineProgress a < (lineOf s.objectiveLines a).length) →
        progressOf (handlePick s r c).lineProgress a = 0) ∧
      (¬ (progressOf s.lineProgress a > 0 ∧
          progressOf s.lineProgress a < (lineOf s.objectiveLines a).length) →
        progressOf (handlePick s r c).lineProgress a = progressOf s.lineProgress a)) := by
  rw [handlePick_fault s r c T hrun htok hall hnone, fault_after_guard s T r c hnone,
    fault_faults, divergenceGuard_faults]
  refine ⟨rfl, ?_, ?_⟩
  · intro i hi
    exact divergenceGuard_progress_same s (some T) i (fun hd => hi hd.1)
  · intro a ha
    constructor
    · intro hp
      exact divergenceGuard_progress_zero s (some T) a
        (diverges_of_no_candidate s T a hnone ha hp)
    · intro hp
      exact divergenceGuard_progress_same s (some T) a (fun hd => hp hd.2.1)

theorem fault_targeting_witness :
    (handlePick afterFirstPick 0 0).faults = afterFirstPick.faults + 1 ∧
    (∀ i, afterFirstPick.activeLine ≠ some i →
      progressOf (handlePick afterFirstPick 0 0).lineProgress i
        = progressOf afterFirstPick.lineProgress i) ∧
    (∀ a, afterFirstPick.activeLine = some a →
      ((progressOf afterFirstPick.lineProgress a > 0 ∧
          progressOf afterFirstPick.lineProgress a
            < (lineOf afterFirstPick.objectiveLines a).length) →
        progressOf (handlePick afterFirstPick 0 0).lineProgress a = 0) ∧
      (¬ (progressOf afterFirstPick.lineProgress a > 0 ∧
          progressOf afterFirstPick.lineProgress a
            < (lineOf afterFirstPick.objectiveLines a).length) →
        progressOf (handlePick afterFirstPick 0 0).lineProgress a
          = progressOf afterFirstPick.lineProgress a)) :=
  fault_targeting afterFirstPick 0 0 "A1" (by decide) (by decide) (by decide)
    (by
      intro k h
      have h1 : k < 2 := h.1
      have h2 : k = 0 ∨ k = 1 := by omega
      rcases h2 with rfl | rfl <;> revert h <;> decide)

/-- C6, a locked-out pick is a no-op: a pick on a cell that `allowed` rejects returns the
state it was given, equal in every field; no divergence reset and no fault happen. -/
theorem locked_out_noop (s : State) (r c : Nat) (hall : allowed s r c = false) :
    handlePick s r c = s := by
  unfold handlePick
  split
  · rfl
  · split
    · rfl
    · simp [hall]

theorem locked_out_noop_witness :
    Running afterFirstPick ∧ allowed afterFirstPick 1 1 = false ∧
    handlePick afterFirstPick 1 1 = afterFirstPick :=
  ⟨by decide, by decide, locked_out_noop afterFirstPick 1 1 (by decide)⟩

/-- C7, terminal and non-running states reject picks: when `running` is false, or `win`
is true, or `fail` is true, a pick on any cell returns the state it was given. -/
theorem terminal_rejects_pick (s : State) (r c : Nat)
    (h : s.running = false ∨ s.win = true ∨ s.fail = true) : handlePick s r c = s := by
  unfold handlePick
  rcases h with h | h | h <;> simp [h]

theorem terminal_rejects_pick_witness :
    (run afterSharedPick [Event.pick 1 1]).win = true ∧
    handlePick (run afterSharedPick [Event.pick 1 1]) 1 0
      = run afterSharedPick [Event.pick 1 1] :=
  ⟨by decide, terminal_rejects_pick (run afterSharedPick [Event.pick 1 1]) 1 0
    (Or.inr (Or.inl (by decide)))⟩

/-! ## The fault cap over a whole session -/

theorem handlePick_cases (s : State) (r c : Nat) :
    handlePick s r c = s ∨
    (s.running = true ∧ ∃ token : Option Token,
      handlePick s r c
          = correctPickMulti s (divergenceGuard s token) (candidateLinesFor s token) r c ∨
      handlePick s r c = fault s (divergenceGuard s token) r c) := by
  unfold handlePick
  split
  · exact Or.inl rfl
  · rename_i hg
    have hr : s.running = true := by
      cases hrun : s.running
      · simp [hrun] at hg
      · rfl
    split
    · exact Or.inl rfl
    · rename_i gridRow _
      simp only
      split
      · exact Or.inl rfl
      · rename_i hal
        have hal2 : allowed s r c = true := by simpa using hal
        refine Or.inr ⟨hr, gridRow[c]?, ?_⟩
        simp only [hal2, if_true]
        split
        · exact Or.inl rfl
        · exact Or.inr rfl

theorem faultsBounded_handlePick (s : State) (r c : Nat) (h : FaultsBounded s) :
    FaultsBounded (handlePick s r c) := by
  rcases handlePick_cases s r c with he | ⟨hr, token, he | he⟩
  · rw [he]; exact h
  · rw [he]
    have hf := correctPickMulti_faults s (divergenceGuard s token)
      (candidateLinesFor s token) r c
    rw [divergenceGuard_faults] at hf
    have hlt := h.2 hr
    unfold FaultsBounded
    rw [hf]
    exact ⟨Nat.le_of_lt hlt, fun _ => hlt⟩
  · rw [he]
    have hf := fault_faults s (divergenceGuard s token) r c
    rw [divergenceGuard_faults] at hf
    have hlt := h.2 hr
    unfold FaultsBounded
    rw [hf]
    refine ⟨hlt, ?_⟩
    intro hrun
    by_cases hcap : (divergenceGuard s token).faults + 1 ≥ FAULTS_MAX
    · have := (fault_flags_at_cap s (divergenceGuard s token) r c hcap).2
      rw [this] at hrun
      exact absurd hrun (by decide)
    · rw [divergenceGuard_faults] at hcap
      exact Nat.lt_of_not_ge hcap

theorem faultsBounded_tick (s : State) (h : FaultsBounded s) : FaultsBounded (tick s) := by
  unfold tick
  split
  · exact h
  · rename_i hg
    have hr : s.running = true := by
      cases hrun : s.running
      · simp [hrun] at hg
      · rfl
    simp only
    split
    · exact ⟨h.1, fun hc => absurd hc (by simp [doFail])⟩
    · exact ⟨h.1, fun _ => h.2 hr⟩

theorem faultsBounded_start (s : State) (hd : s.difficulty.isSome = true) :
    FaultsBounded (start s) := by
  cases h : s.difficulty with
  | none => simp [h] at hd
  | some d => simp [start, h, FaultsBounded, FAULTS_MAX]

theorem faultsBounded_run (es : List Event) (s : State) (h : FaultsBounded s) :
    FaultsBounded (run s es) := by
  induction es generalizing s with
  | nil => exact h
  | cons e es ih =>
    have hstep : run s (e :: es) = run (step s e) es := rfl
    rw [hstep]
    apply ih
    cases e with
    | pick r c => exact faultsBounded_handlePick s r c h
    | tick => exact faultsBounded_tick s h

/-- C8, fault cap: `FAULTS_MAX` is 5; in a running session with 4 faults, an allowed pick
on a cell whose token no incomplete line needs next gives 5 faults and the failed state
(`fail` true, `running` false); with fewer than 4 faults such a pick leaves the session
running; and in every state reached from `start()` the fault counter is at most 5. -/
theorem fault_cap :
    FAULTS_MAX = 5 ∧
    (∀ (s : State) (r c : Nat) (T : Token), Running s → allowed s r c = true →
      tokenAt s.grid r c = some T → (∀ k, ¬ NeedsNext s k T) → s.faults = 4 →
      (handlePick s r c).faults = 5 ∧ (handlePick s r c).fail = true ∧
      (handlePick s r c).running = false) ∧
    (∀ (s : State) (r c : Nat) (T : Token), Running s → allowed s r c = true →
      tokenAt s.grid r c = some T → (∀ k, ¬ NeedsNext s k T) → s.faults < 4 →
      Running (handlePick s r c)) ∧
    (∀ s : State, Reachable s → s.faults ≤ 5) := by
  refine ⟨rfl, ?_, ?_, ?_⟩
  · intro s r c T hrun hall htok hnone hf
    rw [handlePick_fault s r c T hrun htok hall hnone]
    have hcap : (divergenceGuard s (some T)).faults + 1 ≥ FAULTS_MAX := by
      rw [divergenceGuard_faults, hf]
      decide
    refine ⟨?_, fault_flags_at_cap s _ r c hcap⟩
    rw [fault_faults, divergenceGuard_faults, hf]
  · intro s r c T hrun hall htok hnone hf
    rw [handlePick_fault s r c T hrun htok hall hnone]
    have hcap : ¬ (divergenceGuard s (some T)).faults + 1 ≥ FAULTS_MAX := by
      rw [divergenceGuard_faults]
      unfold FAULTS_MAX
      omega
    obtain ⟨h1, h2, h3⟩ := fault_flags_below_cap s _ r c hcap
    obtain ⟨g1, g2, g3⟩ := divergenceGuard_flags s (some T)
    exact ⟨by rw [h1, g1]; exact hrun.1, by rw [h2, g2]; exact hrun.2.1,
      by rw [h3, g3]; exact hrun.2.2⟩
  · rintro s ⟨s0, es, hd, rfl⟩
    exact (faultsBounded_run es _ (faultsBounded_start s0 hd)).1

theorem fault_cap_witness :
    fourFaults.faults = 4 ∧
    (handlePick fourFaults 1 1).faults = 5 ∧ (handlePick fourFaults 1 1).fail = true ∧
    (handlePick fourFaults 1 1).running = false :=
  ⟨by decide,
    fault_cap.2.1 fourFaults 1 1 "F4" (by decide) (by decide) (by decide)
      (by
        intro k h
        have h1 : k < 2 := h.1
        have h2 : k = 0 ∨ k = 1 := by omega
        rcases h2 with rfl | rfl <;> revert h <;> decide)
      (by decide)⟩

/-! ## The win check -/

theorem divergenceGuard_objectiveLines (s : State) (token : Option Token) :
    (divergenceGuard s token).objectiveLines = s.objectiveLines := by
  rcases diverges_or_not s token with ⟨a, h⟩ | h
  · rw [divergenceGuard_of_diverges s token a h]
  · rw [divergenceGuard_of_not_diverges s token h]

theorem cohortStep_objectiveLines (s p : State) (l : List Nat) :
    (cohortStep s p l).objectiveLines = p.objectiveLines := by
  unfold cohortStep
  split
  · rfl
  · split
    · split <;> rfl
    · rfl

theorem correctPickMulti_objectiveLines (s p : State) (l : List Nat) (r c : Nat) :
    (correctPickMulti s p l r c).objectiveLines = p.objectiveLines := by
  unfold correctPickMulti
  simp only
  split <;> exact cohortStep_objectiveLines s _ l

theorem fault_objectiveLines (s p : State) (r c : Nat) :
    (fault s p r c).objectiveLines = p.objectiveLines := by
  unfold fault doFail
  simp only
  split <;> rfl

theorem handlePick_objectiveLines (s : State) (r c : Nat) :
    (handlePick s r c).objectiveLines = s.objectiveLines := by
  rcases handlePick_cases s r c with he | ⟨_, token, he | he⟩
  · rw [he]
  · rw [he, correctPickMulti_objectiveLines, divergenceGuard_objectiveLines]
  · rw [he, fault_objectiveLines, divergenceGuard_objectiveLines]

theorem getElem?_eq_progressOf (lp : List Nat) (i : Nat) (h : i < lp.length) :
    lp[i]? = some (progressOf lp i) := by
  unfold progressOf
  rw [List.getD_eq_getElem?_getD, List.getElem?_eq_getElem h]
  rfl

/-- When every line is complete after an advance, the deferred check over the snapshot
succeeds. -/
theorem winCheck_of_all_done (s : State) (token : Option Token) (r c : Nat)
    (hwf : s.lineProgress.length = s.objectiveLines.length)
    (hdone : ∀ i, i < s.objectiveLines.length →
      progressOf (correctPickMulti s (divergenceGuard s token)
          (candidateLinesFor s token) r c).lineProgress i
        = (lineOf s.objectiveLines i).length) :
    winCheck s (candidateLinesFor s token) = true := by
  unfold winCheck
  rw [List.all_eq_true]
  intro i hi
  have hlt : i < s.objectiveLines.length := List.mem_range.mp hi
  have hd := hdone i hlt
  simp only [getElem?_eq_progressOf s.lineProgress i (hwf ▸ hlt)]
  rw [decide_eq_true_eq]
  by_cases hm : i ∈ candidateLinesFor s token
  · rw [advance_progress_of_mem s token r c i hm] at hd
    have hc : (candidateLinesFor s token).contains i = true := by simpa using hm
    simp only [hc, if_true]
    omega
  · rcases advance_progress_of_not_mem s token r c i hm with h | h
    · rw [h] at hd
      omega
    · rw [h] at hd
      omega

/-- C9, win check: in a running session with one progress entry per objective line, when
an allowed pick advances at least one line and, in the state after the whole update,
the progress of every objective line equals its length, the resulting state is won
(`win` true, `running` false). -/
theorem win_check (s : State) (r c k : Nat) (T : Token)
    (hrun : Running s) (hall : allowed s r c = true) (htok : tokenAt s.grid r c = some T)
    (hwf : s.lineProgress.length = s.objectiveLines.length)
    (hk : NeedsNext s k T)
    (hdone : ∀ i, i < (handlePick s r c).objectiveLines.length →
      progressOf (handlePick s r c).lineProgress i
        = (lineOf (handlePick s r c).objectiveLines i).length) :
    (handlePick s r c).win = true ∧ (handlePick s r c).running = false := by
  rw [handlePick_objectiveLines] at hdone
  rw [handlePick_advance s r c T k hrun htok hall hk] at hdone ⊢
  exact correctPickMulti_won s _ _ r c (winCheck_of_all_done s (some T) r c hwf hdone)

theorem win_check_witness :
    Running oneLineBoard ∧
    (handlePick oneLineBoard 1 0).lineProgress = [2] ∧
    (handlePick oneLineBoard 1 0).win = true ∧ (handlePick oneLineBoard 1 0).running = false :=
  ⟨by decide, by decide,
    win_check oneLineBoard 1 0 0 "E3" (by decide) (by decide) (by decide) (by decide)
      (by decide)
      (by
        intro i hi
        have h1 : i < 1 := hi
        have h2 : i = 0 := by omega
        subst h2
        decide)⟩

/-! ## Shape of the progress array over a session -/

theorem length_setAt (xs : List Nat) (i v : Nat) (h : i < xs.length) :
    (setAt xs i v).length = xs.length := by
  simp [setAt, h]

theorem lt_length_of_progressOf_pos (lp : List Nat) (a : Nat) (h : progressOf lp a > 0) :
    a < lp.length := by
  by_contra hc
  have hnone : lp[a]? = none := List.getElem?_eq_none (Nat.le_of_not_lt hc)
  simp [progressOf, List.getD_eq_getElem?_getD, hnone] at h

theorem length_advanceAll (idxs : List Nat) (prev : List Nat)
    (h : ∀ k ∈ idxs, k < prev.length) : (advanceAll prev idxs).length = prev.length := by
  induction idxs generalizing prev with
  | nil => rfl
  | cons a l ih =>
    have hstep : advanceAll prev (a :: l)
        = advanceAll (setAt prev a (progressOf prev a + 1)) l := rfl
    have ha : a < prev.length := h a (List.mem_cons_self a l)
    have hlen := length_setAt prev a (progressOf prev a + 1) ha
    rw [hstep, ih _ (fun k hk => hlen ▸ h k (List.mem_cons_of_mem a hk)), hlen]

theorem length_nullify (others : List Nat) (prev : List Nat)
    (h : ∀ k ∈ others, k < prev.length) : (nullify prev others).length = prev.length := by
  induction others generalizing prev with
  | nil => rfl
  | cons a l ih =>
    have hstep : nullify prev (a :: l) = nullify (setAt prev a 0) l := rfl
    have ha : a < prev.length := h a (List.mem_cons_self a l)
    have hlen := length_setAt prev a 0 ha
    rw [hstep, ih _ (fun k hk => hlen ▸ h k (List.mem_cons_of_mem a hk)), hlen]

theorem divergenceGuard_length (s : State) (token : Option Token) :
    (divergenceGuard s token).lineProgress.length = s.lineProgress.length := by
  rcases diverges_or_not s token with ⟨a, h⟩ | h
  · rw [divergenceGuard_of_diverges s token a h]
    exact length_setAt _ _ _ (lt_length_of_progressOf_pos _ _ h.2.1.1)
  · rw [divergenceGuard_of_not_diverges s token h]

theorem mem_newSet (l : List Nat) (k : Nat) (h : k ∈ newSet l) : k ∈ l := by
  induction l with
  | nil => simp [newSet] at h
  | cons a l ih =>
    simp only [newSet, List.mem_cons, List.mem_filter] at h
    rcases h with h | h
    · exact h ▸ List.mem_cons_self a l
    · exact List.mem_cons_of_mem a (ih h.1)

theorem cohortStep_wellFormed (s p : State) (l : List Nat) (hs : WellFormed s)
    (hlen : p.lineProgress.length = s.objectiveLines.length)
    (hobj : p.objectiveLines = s.objectiveLines)
    (hp : ∀ cs, p.competeSet = some cs → ∀ k ∈ cs, k < s.objectiveLines.length)
    (hl : ∀ k ∈ l, k < s.objectiveLines.length) :
    WellFormed (cohortStep s p l) := by
  unfold cohortStep
  split
  · refine ⟨by rw [hobj]; exact hlen, ?_⟩
    intro cs hcs k hk
    simp only [Option.some.injEq] at hcs
    rw [hobj]
    exact hl k (mem_newSet l k (hcs ▸ hk))
  · split
    · rename_i x1 cs survivor hcs hnl
      split
      · refine ⟨?_, by intro cs2 h2; simp at h2⟩
        simp only
        rw [hobj]
        split
        · rw [length_nullify _ _ (fun k hk => ?_), hlen]
          rw [hlen]
          exact hs.2 cs hcs k (List.mem_filter.mp hk).1
        · exact hlen
      · exact ⟨by rw [hobj]; exact hlen, by rw [hobj]; exact hp⟩
    · exact ⟨by rw [hobj]; exact hlen, by rw [hobj]; exact hp⟩

theorem wellFormed_of_fields (p q : State) (h : WellFormed p)
    (h1 : q.lineProgress = p.lineProgress) (h2 : q.objectiveLines = p.objectiveLines)
    (h3 : q.competeSet = p.competeSet) : WellFormed q := by
  unfold WellFormed
  rw [h1, h2, h3]
  exact h

theorem correctPickMulti_wellFormed (s : State) (token : Option Token) (r c : Nat)
    (hs : WellFormed s) :
    WellFormed (correctPickMulti s (divergenceGuard s token)
      (candidateLinesFor s token) r c) := by
  have hl : ∀ k ∈ candidateLinesFor s token, k < s.objectiveLines.length :=
    fun k hk => ((mem_candidateLinesFor s token k).mp hk).1
  have hdg := divergenceGuard_length s token
  have hbase : WellFormed (cohortStep s
      { divergenceGuard s token with
        lineProgress := advanceAll (divergenceGuard s token).lineProgress
          (candidateLinesFor s token) } (candidateLinesFor s token)) := by
    apply cohortStep_wellFormed s _ _ hs
    · simp only
      rw [length_advanceAll _ _ (fun k hk => by rw [hdg, hs.1]; exact hl k hk), hdg, hs.1]
    · exact divergenceGuard_objectiveLines s token
    · intro cs hcs k hk
      rcases diverges_or_not s token with ⟨a, h⟩ | h
      · rw [divergenceGuard_of_diverges s token a h] at hcs
        simp at hcs
      · rw [divergenceGuard_of_not_diverges s token h] at hcs
        exact hs.2 cs hcs k hk
    · exact hl
  unfold correctPickMulti
  simp only
  split
  · exact wellFormed_of_fields _ _ hbase rfl rfl rfl
  · exact wellFormed_of_fields _ _ hbase rfl rfl rfl

theorem divergenceGuard_wellFormed (s : State) (token : Option Token) (hs : WellFormed s) :
    WellFormed (divergenceGuard s token) := by
  refine ⟨by rw [divergenceGuard_length, divergenceGuard_objectiveLines]; exact hs.1, ?_⟩
  intro cs hcs k hk
  rw [divergenceGuard_objectiveLines]
  rcases diverges_or_not s token with ⟨a, h⟩ | h
  · rw [divergenceGuard_of_diverges s token a h] at hcs
    simp at hcs
  · rw [divergenceGuard_of_not_diverges s token h] at hcs
    exact hs.2 cs hcs k hk

theorem fault_wellFormed (s p : State) (r c : Nat) (hp : WellFormed p) :
    WellFormed (fault s p r c) := by
  have hlen : (fault s p r c).lineProgress.length = p.lineProgress.length := by
    cases ha : s.activeLine with
    | none => rw [fault_lineProgress_none s p r c ha]
    | some a =>
      by_cases hin : progressOf p.lineProgress a > 0 ∧
          progressOf p.lineProgress a < (lineOf s.objectiveLines a).length
      · rw [fault_lineProgress_reset s p r c a ha hin]
        exact length_setAt _ _ _ (lt_length_of_progressOf_pos _ _ hin.1)
      · rw [fault_lineProgress_idle s p r c a ha hin]
  have hcs : (fault s p r c).competeSet = p.competeSet := by
    unfold fault doFail
    simp only
    split <;> rfl
  unfold WellFormed
  rw [hlen, hcs, fault_objectiveLines]
  exact hp

theorem wellFormed_handlePick (s : State) (r c : Nat) (h : WellFormed s) :
    WellFormed (handlePick s r c) := by
  rcases handlePick_cases s r c with he | ⟨_, token, he | he⟩
  · rw [he]; exact h
  · rw [he]; exact correctPickMulti_wellFormed s token r c h
  · rw [he]; exact fault_wellFormed s _ r c (divergenceGuard_wellFormed s token h)

theorem wellFormed_tick (s : State) (h : WellFormed s) : WellFormed (tick s) := by
  unfold tick doFail
  split
  · exact h
  · simp only
    split <;> exact h

theorem wellFormed_start (s : State) (hd : s.difficulty.isSome = true) :
    WellFormed (start s) := by
  cases h : s.difficulty with
  | none => simp [h] at hd
  | some d => simp [start, h, WellFormed]

theorem wellFormed_run (es : List Event) (s : State) (h : WellFormed s) :
    WellFormed (run s es) := by
  induction es generalizing s with
  | nil => exact h
  | cons e es ih =>
    have hstep : run s (e :: es) = run (step s e) es := rfl
    rw [hstep]
    apply ih
    cases e with
    | pick r c => exact wellFormed_handlePick s r c h
    | tick => exact wellFormed_tick s h

/-- Every state of a session has one progress entry per objective line. -/
theorem reachable_wellFormed (s : State) (h : Reachable s) : WellFormed s := by
  obtain ⟨s0, es, hd, rfl⟩ := h
  exact wellFormed_run es _ (wellFormed_start s0 hd)

/-! ## Completed lines and the cohort reset -/

/-- C1, completed-line immunity, on the Easy board `[[A1,C2],[E3,F4]]` with the lines
`[A1,E3]` and `[E3,F4]`: after `start()` and the picks `(0,0)`, `(1,0)` line 0 is
complete (progress 2 of 2) and the cohort is both lines; the next pick `(1,1)` advances
line 1 alone, and the cohort reset puts the completed line 0 back to progress 0. -/
theorem completed_line_reset_by_cohort :
    Reachable afterSharedPick ∧
    Running afterSharedPick ∧
    afterSharedPick.competeSet = some [0, 1] ∧
    progressOf afterSharedPick.lineProgress 0
      = (lineOf afterSharedPick.objectiveLines 0).length ∧
    allowed afterSharedPick 1 1 = true ∧
    candidateLinesFor afterSharedPick (tokenAt afterSharedPick.grid 1 1) = [1] ∧
    progressOf (handlePick afterSharedPick 1 1).lineProgress 0 = 0 ∧
    (lineOf (handlePick afterSharedPick 1 1).objectiveLines 0).length = 2 := by
  refine ⟨⟨easyBoard, [Event.pick 0 0, Event.pick 1 0], rfl, rfl⟩, ?_, ?_, ?_, ?_, ?_, ?_, ?_⟩ <;>
    decide

/-- C10, won means all lines cleared, on the Easy board `[[A1,C2],[E3,F4]]` with the
lines `[A1,E3]` and `[E3,F4]`: the state reached from `start()` by the picks `(0,0)`,
`(1,0)`, `(1,1)` has `win` true while line 0, of length 2, stands at progress 0. -/
theorem won_with_line_at_zero :
    Reachable (run (start easyBoard) [Event.pick 0 0, Event.pick 1 0, Event.pick 1 1]) ∧
    (run (start easyBoard) [Event.pick 0 0, Event.pick 1 0, Event.pick 1 1]).win = true ∧
    (run (start easyBoard) [Event.pick 0 0, Event.pick 1 0, Event.pick 1 1]).lineProgress
      = [0, 2] ∧
    (run (start easyBoard) [Event.pick 0 0, Event.pick 1 0, Event.pick 1 1]).objectiveLines
      = [["A1", "E3"], ["E3", "F4"]] := by
  refine ⟨⟨easyBoard, [Event.pick 0 0, Event.pick 1 0, Event.pick 1 1], rfl, rfl⟩, ?_, ?_, ?_⟩ <;>
    decide

/-! ## Move legality and alternation -/

/-- C14, move legality: `allowed(r, c)` is true exactly when the constraint is `top-row`
and `r = 0`, or it is `column`, `lastPos` is defined and `c = lastPos.c`, or it is `row`,
`lastPos` is defined and `r = lastPos.r`. -/
theorem allowed_iff (s : State) (r c : Nat) :
    allowed s r c = true ↔
      (s.constraint = Constraint.topRow ∧ r = 0) ∨
      (s.constraint = Constraint.column ∧ ∃ lp, s.lastPos = some lp ∧ c = lp.2) ∨
      (s.constraint = Constraint.row ∧ ∃ lp, s.lastPos = some lp ∧ r = lp.1) := by
  unfold allowed
  cases hk : s.constraint <;> cases hl : s.lastPos <;> simp

theorem correctPickMulti_position (s p : State) (l : List Nat) (r c : Nat) :
    (correctPickMulti s p l r c).lastPos = some (r, c) ∧
    (correctPickMulti s p l r c).constraint = toggleConstraint s.constraint := by
  unfold correctPickMulti
  simp only
  split <;> exact ⟨rfl, rfl⟩

theorem fault_position (s p : State) (r c : Nat) :
    (fault s p r c).lastPos = some (r, c) ∧
    (fault s p r c).constraint = toggleConstraint s.constraint := by
  unfold fault doFail
  exact ⟨rfl, rfl⟩

theorem toggleConstraint_ne_topRow (k : Constraint) :
    toggleConstraint k ≠ Constraint.topRow := by
  cases k <;> simp [toggleConstraint]

theorem handlePick_constraint (s : State) (r c : Nat) :
    (handlePick s r c).constraint = s.constraint ∨
    (handlePick s r c).constraint = toggleConstraint s.constraint := by
  rcases handlePick_cases s r c with he | ⟨_, token, he | he⟩
  · rw [he]; exact Or.inl rfl
  · rw [he]; exact Or.inr (correctPickMulti_position s _ _ r c).2
  · rw [he]; exact Or.inr (fault_position s _ r c).2

theorem tick_constraint (s : State) : (tick s).constraint = s.constraint := by
  unfold tick doFail
  split
  · rfl
  · simp only
    split <;> rfl

theorem run_constraint_ne_topRow (es : List Event) (s : State)
    (h : s.constraint ≠ Constraint.topRow) : (run s es).constraint ≠ Constraint.topRow := by
  induction es generalizing s with
  | nil => exact h
  | cons e es ih =>
    have hstep : run s (e :: es) = run (step s e) es := rfl
    rw [hstep]
    apply ih
    cases e with
    | pick r c =>
      rcases handlePick_constraint s r c with hc | hc
      · exact fun e => h (hc ▸ e)
      · intro e
        have : toggleConstraint s.constraint = Constraint.topRow := hc ▸ e
        exact toggleConstraint_ne_topRow _ this
    | tick =>
      intro e
      exact h (tick_constraint s ▸ e)

theorem handlePick_position (s : State) (r c : Nat) (T : Token) (hrun : Running s)
    (hall : allowed s r c = true) (htok : tokenAt s.grid r c = some T) :
    (handlePick s r c).lastPos = some (r, c) ∧
    (handlePick s r c).constraint = toggleConstraint s.constraint := by
  rw [handlePick_of_allowed s r c T hrun htok hall]
  split
  · exact correctPickMulti_position s _ _ r c
  · exact fault_position s _ r c

/-- C15, constraint alternation: in a running session every accepted pick, on an allowed
grid cell `(r, c)`, advance or fault alike, leaves `lastPos = (r, c)` and the constraint
`column` when it was `top-row` or `row`, `row` when it was `column`; so the constraint
after an accepted pick is not `top-row`, and no later pick or timer firing brings
`top-row` back. -/
theorem constraint_alternation :
    (∀ (s : State) (r c : Nat) (T : Token), Running s → allowed s r c = true →
      tokenAt s.grid r c = some T →
      (handlePick s r c).lastPos = some (r, c) ∧
      (s.constraint = Constraint.topRow ∨ s.constraint = Constraint.row →
        (handlePick s r c).constraint = Constraint.column) ∧
      (s.constraint = Constraint.column →
        (handlePick s r c).constraint = Constraint.row) ∧
      ∀ es : List Event, (run (handlePick s r c) es).constraint ≠ Constraint.topRow) := by
  intro s r c T hrun hall htok
  obtain ⟨h1, h2⟩ := handlePick_position s r c T hrun hall htok
  refine ⟨h1, ?_, ?_, ?_⟩
  · rintro (h | h) <;> rw [h2, h] <;> rfl
  · intro h
    rw [h2, h]
    rfl
  · intro es
    apply run_constraint_ne_topRow
    rw [h2]
    exact toggleConstraint_ne_topRow _

theorem constraint_alternation_witness :
    (handlePick (start easyBoard) 0 0).lastPos = some (0, 0) ∧
    (handlePick (start easyBoard) 0 0).constraint = Constraint.column ∧
    (handlePick afterFirstPick 1 0).constraint = Constraint.row :=
  ⟨(constraint_alternation (start easyBoard) 0 0 "A1" (by decide) (by decide) (by decide)).1,
    (constraint_alternation (start easyBoard) 0 0 "A1" (by decide) (by decide)
      (by decide)).2.1 (Or.inl (by decide)),
    (constraint_alternation afterFirstPick 1 0 "E3" (by decide) (by decide)
      (by decide)).2.2.1 (by decide)⟩

/-- C16, the Easy scenario: on the grid `[[A1,C2],[E3,F4]]` with the single line
`[A1,F4]`, after `start()` the constraint is `top-row`; pick `(0,0)` gives progress 1,
constraint `column`, `lastPos = (0,0)` and no fault; pick `(1,1)` is then not allowed and
changes nothing; pick `(1,0)` is allowed, gives one fault, puts the line back to progress 0
and sets the constraint to `row`. -/
theorem easy_scenario :
    (start scenarioBoard).constraint = Constraint.topRow ∧
    (start scenarioBoard).running = true ∧
    (run (start scenarioBoard) [Event.pick 0 0]).lineProgress = [1] ∧
    (run (start scenarioBoard) [Event.pick 0 0]).constraint = Constraint.column ∧
    (run (start scenarioBoard) [Event.pick 0 0]).lastPos = some (0, 0) ∧
    (run (start scenarioBoard) [Event.pick 0 0]).faults = 0 ∧
    allowed (run (start scenarioBoard) [Event.pick 0 0]) 1 1 = false ∧
    run (start scenarioBoard) [Event.pick 0 0, Event.pick 1 1]
      = run (start scenarioBoard) [Event.pick 0 0] ∧
    allowed (run (start scenarioBoard) [Event.pick 0 0, Event.pick 1 1]) 1 0 = true ∧
    (run (start scenarioBoard) [Event.pick 0 0, Event.pick 1 1, Event.pick 1 0]).faults = 1 ∧
    (run (start scenarioBoard) [Event.pick 0 0, Event.pick 1 1, Event.pick 1 0]).lineProgress
      = [0] ∧
    (run (start scenarioBoard) [Event.pick 0 0, Event.pick 1 1, Event.pick 1 0]).constraint
      = Constraint.row := by
  refine ⟨?_, ?_, ?_, ?_, ?_, ?_, ?_, ?_, ?_, ?_, ?_, ?_⟩ <;> decide

/-! ## Start and the timer -/

theorem progressOf_map_zero (ls : List (List Token)) (i : Nat) :
    progressOf (ls.map (fun _ => 0)) i = 0 := by
  unfold progressOf
  rw [List.getD_eq_getElem?_getD, List.getElem?_map]
  cases ls[i]? <;> rfl

/-- C17, start initialises without regenerating: with a difficulty selected, `start()`
gives `running` true, constraint `top-row`, `lastPos` null, no faults, `timeLeft` 150, one
progress entry per line and every one 0, `activeLine` and the cohort null, `win` and
`fail` false, and the grid and objective lines of the state it was called on. -/
theorem start_initialises (s : State) (hd : s.difficulty.isSome = true) :
    (start s).running = true ∧
    (start s).constraint = Constraint.topRow ∧
    (start s).lastPos = none ∧
    (start s).faults = 0 ∧
    (start s).timeLeft = 150 ∧
    (start s).lineProgress.length = s.objectiveLines.length ∧
    (∀ i, progressOf (start s).lineProgress i = 0) ∧
    (start s).activeLine = none ∧
    (start s).competeSet = none ∧
    (start s).win = false ∧
    (start s).fail = false ∧
    (start s).grid = s.grid ∧
    (start s).objectiveLines = s.objectiveLines := by
  cases h : s.difficulty with
  | none => simp [h] at hd
  | some d =>
    have hs : start s =
        { s with
          lineProgress := s.objectiveLines.map (fun _ => 0)
          activeLine := none
          running := true
          timeLeft := TIMER_SECONDS
          constraint := Constraint.topRow
          lastPos := none
          faults := 0
          win := false
          fail := false
          competeSet := none } := by
      simp only [start, h]
    rw [hs]
    refine ⟨rfl, rfl, rfl, rfl, rfl, ?_, ?_, rfl, rfl, rfl, rfl, rfl, rfl⟩
    · exact List.length_map _ _
    · intro i
      exact progressOf_map_zero s.objectiveLines i

theorem start_initialises_witness :
    (start afterSharedPick).running = true ∧
    (start afterSharedPick).constraint = Constraint.topRow ∧
    (start afterSharedPick).lastPos = none ∧
    (start afterSharedPick).faults = 0 ∧
    (start afterSharedPick).timeLeft = 150 ∧
    (start afterSharedPick).lineProgress.length = afterSharedPick.objectiveLines.length ∧
    (∀ i, progressOf (start afterSharedPick).lineProgress i = 0) ∧
    (start afterSharedPick).activeLine = none ∧
    (start afterSharedPick).competeSet = none ∧
    (start afterSharedPick).win = false ∧
    (start afterSharedPick).fail = false ∧
    (start afterSharedPick).grid = afterSharedPick.grid ∧
    (start afterSharedPick).objectiveLines = afterSharedPick.objectiveLines :=
  start_initialises afterSharedPick (by decide)

theorem tick_of_running (s : State) (h : Running s) :
    tick s =
      if s.timeLeft - 1 ≤ 0 then doFail { s with timeLeft := s.timeLeft - 1 }
      else { s with timeLeft := s.timeLeft - 1 } := by
  obtain ⟨h1, h2, h3⟩ := h
  unfold tick
  simp [h1, h2, h3]

/-- C18, timer tick: in a state that is running and neither won nor failed, one tick
lowers `timeLeft` by exactly 1 and changes no puzzle field, and the state becomes failed
(`fail` true, `running` false) exactly when the new `timeLeft` is at most 0; in a state
that is not running, or is won or failed, a tick changes nothing. -/
theorem timer_tick :
    (∀ s : State, Running s →
      (tick s).timeLeft = s.timeLeft - 1 ∧
      (tick s).lineProgress = s.lineProgress ∧ (tick s).activeLine = s.activeLine ∧
      (tick s).competeSet = s.competeSet ∧ (tick s).faults = s.faults ∧
      (tick s).constraint = s.constraint ∧ (tick s).lastPos = s.lastPos ∧
      (tick s).grid = s.grid ∧ (tick s).objectiveLines = s.objectiveLines ∧
      (tick s).difficulty = s.difficulty ∧ (tick s).win = false ∧
      ((tick s).timeLeft ≤ 0 → (tick s).fail = true ∧ (tick s).running = false) ∧
      (0 < (tick s).timeLeft → (tick s).fail = false ∧ (tick s).running = true)) ∧
    (∀ s : State, s.running = false ∨ s.win = true ∨ s.fail = true → tick s = s) := by
  constructor
  · intro s h
    rw [tick_of_running s h]
    obtain ⟨h1, h2, h3⟩ := h
    by_cases ht : s.timeLeft - 1 ≤ 0
    · rw [if_pos ht]
      refine ⟨rfl, rfl, rfl, rfl, rfl, rfl, rfl, rfl, rfl, rfl, h2, fun _ => ⟨rfl, rfl⟩, ?_⟩
      intro hpos
      exact absurd (show s.timeLeft - 1 ≤ 0 from ht) (not_le.mpr hpos)
    · rw [if_neg ht]
      refine ⟨rfl, rfl, rfl, rfl, rfl, rfl, rfl, rfl, rfl, rfl, h2, ?_, fun _ => ⟨h3, h1⟩⟩
      intro hle
      exact absurd hle ht
  · intro s h
    unfold tick
    rcases h with h | h | h <;> simp [h]

theorem timer_tick_witness :
    (tick lastSecond).timeLeft = 0 ∧ (tick lastSecond).fail = true ∧
    (tick lastSecond).running = false ∧ tick (tick lastSecond) = tick lastSecond :=
  ⟨(timer_tick.1 lastSecond (by decide)).1,
    ((timer_tick.1 lastSecond (by decide)).2.2.2.2.2.2.2.2.2.2.2.1 (by decide)).1,
    ((timer_tick.1 lastSecond (by decide)).2.2.2.2.2.2.2.2.2.2.2.1 (by decide)).2,
    timer_tick.2 (tick lastSecond) (Or.inl (by decide))⟩

/-! ## The active line after an advance -/

theorem le_getLast_of_sorted (l : List Nat) (m : Nat) (hs : l.Sorted (fun a b => a < b))
    (hm : l.getLast? = some m) : ∀ k ∈ l, k ≤ m := by
  obtain ⟨ys, rfl⟩ := List.getLast?_eq_some_iff.mp hm
  intro k hk
  have hp := List.pairwise_append.mp hs
  rcases List.mem_append.mp hk with h | h
  · exact Nat.le_of_lt (hp.2.2 k h m (List.mem_singleton_self m))
  · rw [List.mem_singleton.mp h]

theorem correctPickMulti_activeLine (s p : State) (l : List Nat) (r c : Nat) :
    (correctPickMulti s p l r c).activeLine = l.getLast? := by
  unfold correctPickMulti
  simp only
  split <;> rfl

/-- C20, candidates and the active line: `candidateLinesFor(T)` returns, in strictly
increasing order and without duplicates, exactly the indexes `i` of objective lines with
`lineProgress[i] < length(line i)` and `line_i[lineProgress[i]] = T`; and after an allowed
pick of a running session whose candidate set is not empty, every candidate has advanced
by one and `activeLine` is the greatest candidate index. -/
theorem candidates_and_active_line :
    (∀ (s : State) (T : Token),
      (candidateLinesFor s (some T)).Sorted (fun a b => a < b) ∧
      (candidateLinesFor s (some T)).Nodup ∧
      ∀ i, i ∈ candidateLinesFor s (some T) ↔
        (i < s.objectiveLines.length ∧
          progressOf s.lineProgress i < (lineOf s.objectiveLines i).length ∧
          (lineOf s.objectiveLines i)[progressOf s.lineProgress i]? = some T)) ∧
    (∀ (s : State) (r c : Nat) (T : Token), Running s → allowed s r c = true →
      tokenAt s.grid r c = some T → candidateLinesFor s (some T) ≠ [] →
      (∀ k ∈ candidateLinesFor s (some T),
        progressOf (handlePick s r c).lineProgress k = progressOf s.lineProgress k + 1) ∧
      ∃ m, (handlePick s r c).activeLine = some m ∧ m ∈ candidateLinesFor s (some T) ∧
        ∀ k ∈ candidateLinesFor s (some T), k ≤ m) := by
  constructor
  · intro s T
    exact ⟨candidateLinesFor_sorted s (some T), candidateLinesFor_nodup s (some T),
      mem_candidateLinesFor s (some T)⟩
  · intro s r c T hrun hall htok hne
    rw [handlePick_of_allowed s r c T hrun htok hall,
      if_pos (List.length_pos_of_ne_nil hne)]
    refine ⟨fun k hk => advance_progress_of_mem s (some T) r c k hk, ?_⟩
    rw [correctPickMulti_activeLine]
    cases hl : (candidateLinesFor s (some T)).getLast? with
    | none => exact absurd (List.getLast?_eq_none_iff.mp hl) hne
    | some m =>
      exact ⟨m, rfl, List.mem_of_getLast?_eq_some hl,
        le_getLast_of_sorted _ m (candidateLinesFor_sorted s (some T)) hl⟩

theorem candidates_and_active_line_witness :
    candidateLinesFor afterFirstPick (some "E3") = [0, 1] ∧
    ∃ m, (handlePick afterFirstPick 1 0).activeLine = some m ∧
      m ∈ candidateLinesFor afterFirstPick (some "E3") ∧
      ∀ k ∈ candidateLinesFor afterFirstPick (some "E3"), k ≤ m :=
  ⟨by decide,
    (candidates_and_active_line.2 afterFirstPick 1 0 "E3" (by decide) (by decide) (by decide)
      (by decide)).2⟩

/-! ## The generator: cells and choices -/

theorem rand_lt (ω : Nat → Nat) (k n : Nat) (h : 0 < n) : rand ω k n < n := by
  unfold rand
  rw [if_neg (Nat.pos_iff_ne_zero.mp h)]
  exact Nat.mod_lt _ h

theorem choice_mem (ω : Nat → Nat) (k : Nat) (arr : List (Nat × Nat)) (h : arr ≠ []) :
    ∃ q, choice ω k arr = some q ∧ q ∈ arr := by
  have hlt : rand ω k arr.length < arr.length := rand_lt ω k _ (List.length_pos_of_ne_nil h)
  refine ⟨arr[rand ω k arr.length], ?_, List.getElem_mem _⟩
  unfold choice
  exact List.getElem?_eq_getElem hlt

theorem mem_colCoords (grid : Grid) (c : Nat) (q : Nat × Nat) :
    q ∈ colCoords grid c ↔ q.1 < gridRows grid ∧ q.2 = c := by
  obtain ⟨a, b⟩ := q
  simp only [colCoords, List.mem_map, List.mem_range, Prod.mk.injEq]
  constructor
  · rintro ⟨x, hx, rfl, rfl⟩
    exact ⟨hx, rfl⟩
  · rintro ⟨h1, h2⟩
    exact ⟨a, h1, rfl, h2.symm⟩

theorem mem_rowCoords (grid : Grid) (r : Nat) (q : Nat × Nat) :
    q ∈ rowCoords grid r ↔ q.1 = r ∧ q.2 < gridCols grid := by
  obtain ⟨a, b⟩ := q
  simp only [rowCoords, List.mem_map, List.mem_range, Prod.mk.injEq]
  constructor
  · rintro ⟨x, hx, rfl, rfl⟩
    exact ⟨rfl, hx⟩
  · rintro ⟨h1, h2⟩
    exact ⟨b, h2, h1.symm, rfl⟩

theorem mem_lineCoords (grid : Grid) (d : Dir) (r c : Nat) (q : Nat × Nat)
    (hin : InGrid grid (r, c)) (hq : q ∈ lineCoords grid d r c) :
    InGrid grid q ∧ OnLine d (r, c) q := by
  unfold lineCoords at hq
  cases d with
  | column =>
    rw [if_pos rfl] at hq
    obtain ⟨h1, h2⟩ := (mem_colCoords grid c q).mp hq
    exact ⟨⟨h1, by rw [h2]; exact hin.2⟩, h2⟩
  | row =>
    rw [if_neg (by decide)] at hq
    obtain ⟨h1, h2⟩ := (mem_rowCoords grid r q).mp hq
    exact ⟨⟨by rw [h1]; exact hin.1, h2⟩, h1⟩

theorem lineCoords_ne_nil (grid : Grid) (d : Dir) (r c : Nat) (hg : HasCell grid) :
    lineCoords grid d r c ≠ [] := by
  intro h
  have hlen : (lineCoords grid d r c).length = 0 := by rw [h]; rfl
  unfold lineCoords at hlen
  cases d with
  | column =>
    rw [if_pos rfl] at hlen
    simp [colCoords] at hlen
    exact absurd hg.1 (by omega)
  | row =>
    rw [if_neg (by decide)] at hlen
    simp [rowCoords] at hlen
    exact absurd hg.2 (by omega)

theorem choice_lineCoords (grid : Grid) (ω : Nat → Nat) (k : Nat) (d : Dir) (r c : Nat)
    (hg : HasCell grid) (hin : InGrid grid (r, c)) :
    ∃ q, choice ω k (lineCoords grid d r c) = some q ∧ InGrid grid q ∧ OnLine d (r, c) q := by
  obtain ⟨q, hq, hm⟩ := choice_mem ω k _ (lineCoords_ne_nil grid d r c hg)
  exact ⟨q, hq, mem_lineCoords grid d r c q hin hm⟩

/-! ## The generator: the simple connected line -/

theorem simpleLoop_spec (grid : Grid) (ω : Nat → Nat) (hg : HasCell grid) (n : Nat) :
    ∀ (k r c : Nat) (d : Dir) (acc : List (Option Token)), InGrid grid (r, c) →
      ∃ ts k2, simpleLoop grid ω n k r c d acc = some (acc ++ ts, k2) ∧
        ts.length = n ∧ Follows grid (r, c) d ts := by
  induction n with
  | zero =>
    intro k r c d acc _
    exact ⟨[], k, by simp [simpleLoop], rfl, trivial⟩
  | succ n ih =>
    intro k r c d acc hin
    obtain ⟨q, hq, hqin, hline⟩ := choice_lineCoords grid ω k d r c hg hin
    obtain ⟨ts, k2, hts, hlen, hfol⟩ :=
      ih (k + 1) q.1 q.2 (flipDir d) (acc ++ [tokenAt grid q.1 q.2]) hqin
    refine ⟨tokenAt grid q.1 q.2 :: ts, k2, ?_, by simp [hlen], ?_⟩
    · simp only [simpleLoop, hq]
      rw [hts]
      simp
    · exact ⟨q, hqin, hline, rfl, hfol⟩

theorem getElem?_of_lt_gridRows (grid : Grid) (r : Nat) (h : r < gridRows grid) :
    ∃ gridRow, grid[r]? = some gridRow ∧ gridRow ∈ grid :=
  ⟨grid[r], List.getElem?_eq_getElem h, List.getElem_mem _⟩

theorem tokenAt_of_inGrid (grid : Grid) (hr : Rectangular grid) (p : Nat × Nat)
    (hin : InGrid grid p) : ∃ tok, tokenAt grid p.1 p.2 = some tok := by
  obtain ⟨gridRow, hrow, hmem⟩ := getElem?_of_lt_gridRows grid p.1 hin.1
  have hlen : p.2 < gridRow.length := by rw [hr gridRow hmem]; exact hin.2
  exact ⟨gridRow[p.2], by simp [tokenAt, hrow, List.getElem?_eq_getElem hlen]⟩

theorem buildSimpleConnectedLine_spec (grid : Grid) (ω : Nat → Nat) (hg : HasCell grid)
    (k r0 c0 len : Nat) (d : Dir) (hin : InGrid grid (r0, c0)) :
    ∃ ts k2, buildSimpleConnectedLine grid ω k r0 c0 len d
        = some (tokenAt grid r0 c0 :: ts, k2) ∧
      ts.length = len - 1 ∧ Follows grid (r0, c0) d ts := by
  obtain ⟨gridRow, hrow, _⟩ := getElem?_of_lt_gridRows grid r0 hin.1
  obtain ⟨ts, k2, hts, hlen, hfol⟩ :=
    simpleLoop_spec grid ω hg (len - 1) k r0 c0 d [gridRow[c0]?] hin
  refine ⟨ts, k2, ?_, hlen, hfol⟩
  unfold buildSimpleConnectedLine
  simp only [hrow]
  rw [hts]
  simp [tokenAt, hrow]

/-! ## The generator: the tricky attempts -/

theorem attemptStep_spec (grid : Grid) (ω : Nat → Nat) (len i : Nat) (w : Walk)
    (hg : HasCell grid) (hin : InGrid grid (w.r, w.c)) :
    ∃ w2 i2, attemptStep grid ω len i w = some (w2, i2) ∧ InGrid grid (w2.r, w2.c) ∧
      ((i + 1 < len ∧ i2 = i + 1 ∧ w2.trickyCount ≤ w.trickyCount + 1) ∨
       (¬ i + 1 < len ∧ i2 = i ∧ w2.trickyCount = w.trickyCount)) := by
  obtain ⟨q, hq, hqin, _⟩ := choice_lineCoords grid ω w.pos w.dir w.r w.c hg hin
  unfold attemptStep
  simp only [hq]
  by_cases hi : i + 1 < len
  · rw [if_pos hi]
    obtain ⟨first, hfirst, hfin, _⟩ :=
      choice_lineCoords grid ω (w.pos + 1) (flipDir w.dir) q.1 q.2 hg hqin
    simp only [hfirst]
    cases hre : (coin ω (w.pos + 2) &&
        decide ((List.filter (fun p => decide (tokenAt grid p.1 p.2 = tokenAt grid q.1 q.2))
          (lineCoords grid (flipDir w.dir) q.1 q.2)).length > 0))
    · simp only [Bool.false_eq_true, if_false]
      refine ⟨_, _, rfl, hfin, Or.inl ⟨hi, rfl, ?_⟩⟩
      simp only
      split <;> omega
    · simp only [if_true]
      have hpos : (List.filter (fun p => decide (tokenAt grid p.1 p.2 = tokenAt grid q.1 q.2))
          (lineCoords grid (flipDir w.dir) q.1 q.2)).length > 0 := by
        have := (Bool.and_eq_true _ _).mp hre
        exact of_decide_eq_true this.2
      obtain ⟨sq, hsq, hmem⟩ := choice_mem ω (w.pos + 3) _ (List.ne_nil_of_length_pos hpos)
      have hsqin : InGrid grid sq :=
        (mem_lineCoords grid (flipDir w.dir) q.1 q.2 sq hqin (List.mem_filter.mp hmem).1).1
      simp only [hsq]
      refine ⟨_, _, rfl, hsqin, Or.inl ⟨hi, rfl, ?_⟩⟩
      simp only
      split <;> omega
  · rw [if_neg hi]
    exact ⟨_, _, rfl, hqin, Or.inr ⟨hi, rfl, rfl⟩⟩

theorem attemptLoop_spec (grid : Grid) (ω : Nat → Nat) (len : Nat) (hg : HasCell grid)
    (fuel : Nat) :
    ∀ (i : Nat) (w : Walk), InGrid grid (w.r, w.c) →
      ∃ w2, attemptLoop grid ω len fuel i w = some w2 ∧
        w2.trickyCount ≤ w.trickyCount + (len - i) / 2 := by
  induction fuel with
  | zero =>
    intro i w _
    exact ⟨w, rfl, Nat.le_add_right _ _⟩
  | succ fuel ih =>
    intro i w hin
    unfold attemptLoop
    by_cases hi : i < len
    · rw [if_pos hi]
      obtain ⟨w2, i2, hstep, hin2, hcase⟩ := attemptStep_spec grid ω len i w hg hin
      simp only [hstep]
      obtain ⟨w3, hw3, hle⟩ := ih (i2 + 1) w2 hin2
      refine ⟨w3, hw3, ?_⟩
      rcases hcase with ⟨h1, h2, h3⟩ | ⟨h1, h2, h3⟩
      · subst h2
        omega
      · subst h2
        omega
    · rw [if_neg hi]
      exact ⟨w, rfl, Nat.le_add_right _ _⟩

theorem attempt_spec (grid : Grid) (ω : Nat → Nat) (hg : HasCell grid)
    (k startR startC len : Nat) (d : Dir) (hin : InGrid grid (startR, startC)) :
    ∃ w, attempt grid ω k startR startC len d = some w ∧ w.trickyCount ≤ (len - 1) / 2 := by
  obtain ⟨gridRow, hrow, _⟩ := getElem?_of_lt_gridRows grid startR hin.1
  unfold attempt
  simp only [hrow]
  obtain ⟨w, hw, hle⟩ := attemptLoop_spec grid ω len hg len 1
    { r := startR, c := startC, dir := d, tokens := [gridRow[startC]?],
      trickyCount := 0, pos := k } hin
  exact ⟨w, hw, by simpa using hle⟩

/-- With the default `minTricky` and a length of at least 1 no attempt is returned: the
attempt loop ends in the fallback, on the draws left after the attempts. -/
theorem triesLoop_eq_simple (grid : Grid) (ω : Nat → Nat) (hg : HasCell grid)
    (startR startC len : Nat) (d : Dir) (hin : InGrid grid (startR, startC))
    (hlen : 1 ≤ len) (n : Nat) :
    ∀ k, ∃ k2, triesLoop grid ω startR startC len d (defaultMinTricky len) n k
      = buildSimpleConnectedLine grid ω k2 startR startC len d := by
  induction n with
  | zero =>
    intro k
    exact ⟨k, rfl⟩
  | succ n ih =>
    intro k
    obtain ⟨w, hw, hle⟩ := attempt_spec grid ω hg k startR startC len d hin
    obtain ⟨k2, hk2⟩ := ih w.pos
    refine ⟨k2, ?_⟩
    unfold triesLoop
    simp only [hw]
    rw [if_neg]
    · exact hk2
    · intro hc
      have h1 := hc.1
      unfold defaultMinTricky at h1
      omega

theorem buildTrickyLine_eq_simple (grid : Grid) (ω : Nat → Nat) (hg : HasCell grid)
    (k startR startC len : Nat) (d : Dir) (hin : InGrid grid (startR, startC))
    (hlen : 1 ≤ len) (tries : Nat) :
    ∃ k2, buildTrickyLine grid ω k startR startC len d (defaultMinTricky len) tries
      = buildSimpleConnectedLine grid ω k2 startR startC len d :=
  triesLoop_eq_simple grid ω hg startR startC len d hin hlen tries k

theorem buildTrickyLine_spec (grid : Grid) (ω : Nat → Nat) (hg : HasCell grid)
    (k startR startC len : Nat) (d : Dir) (hin : InGrid grid (startR, startC))
    (hlen : 1 ≤ len) (tries : Nat) :
    ∃ ts k2, buildTrickyLine grid ω k startR startC len d (defaultMinTricky len) tries
        = some (tokenAt grid startR startC :: ts, k2) ∧
      ts.length = len - 1 ∧ Follows grid (startR, startC) d ts := by
  obtain ⟨k1, hk1⟩ := buildTrickyLine_eq_simple grid ω hg k startR startC len d hin hlen tries
  obtain ⟨ts, k2, h, hl, hf⟩ := buildSimpleConnectedLine_spec grid ω hg k1 startR startC len d hin
  exact ⟨ts, k2, hk1.trans h, hl, hf⟩

/-- With length 0 the first attempt is returned at once, as the empty line. -/
theorem buildTrickyLine_zero (grid : Grid) (ω : Nat → Nat) (k startR startC : Nat) (d : Dir)
    (hin : InGrid grid (startR, startC)) (tries : Nat) :
    buildTrickyLine grid ω k startR startC 0 d (defaultMinTricky 0) (tries + 1)
      = some ([], k) := by
  obtain ⟨gridRow, hrow, _⟩ := getElem?_of_lt_gridRows grid startR hin.1
  simp [buildTrickyLine, triesLoop, attempt, attemptLoop, hrow, defaultMinTricky, truncateTo]

/-! ## The generator: traceability -/

theorem dirAt_flipDir (d : Dir) (k : Nat) : dirAt (flipDir d) k = dirAt d (k + 1) := by
  unfold dirAt
  rcases Nat.mod_two_eq_zero_or_one k with h | h
  · have h2 : (k + 1) % 2 = 1 := by omega
    simp [h, h2]
  · have h2 : (k + 1) % 2 = 0 := by omega
    cases d <;> simp [h, h2, flipDir]

theorem follows_path (grid : Grid) (hr : Rectangular grid) (ts : List (Option Token)) :
    ∀ (p : Nat × Nat) (d : Dir), Follows grid p d ts →
      ∃ path : List (Nat × Nat),
        path.length = ts.length ∧
        (∀ (k : Nat) (q : Nat × Nat), path[k]? = some q →
          InGrid grid q ∧ ∃ tok, tokenAt grid q.1 q.2 = some tok ∧ ts[k]? = some (some tok)) ∧
        (∀ q, path[0]? = some q → OnLine d p q) ∧
        (∀ (k : Nat) (a b : Nat × Nat), path[k]? = some a → path[k + 1]? = some b →
          OnLine (dirAt d (k + 1)) a b) := by
  induction ts with
  | nil =>
    intro p d _
    exact ⟨[], rfl, by simp, by simp, by simp⟩
  | cons t ts ih =>
    intro p d hf
    obtain ⟨q, hqin, hline, htok, hrest⟩ := hf
    obtain ⟨path, hlen, hcells, hfirst, hsteps⟩ := ih q (flipDir d) hrest
    refine ⟨q :: path, by simp [hlen], ?_, ?_, ?_⟩
    · intro k x hx
      cases k with
      | zero =>
        have hxq : q = x := by simpa using hx
        subst hxq
        obtain ⟨tok, htk⟩ := tokenAt_of_inGrid grid hr q hqin
        refine ⟨hqin, tok, htk, ?_⟩
        simp [← htok, htk]
      | succ k =>
        have hx2 : path[k]? = some x := by simpa using hx
        obtain ⟨h1, tok, h2, h3⟩ := hcells k x hx2
        exact ⟨h1, tok, h2, by simpa using h3⟩
    · intro x hx
      have hxq : q = x := by simpa using hx
      subst hxq
      exact hline
    · intro k a b ha hb
      cases k with
      | zero =>
        have haq : q = a := by simpa using ha
        subst haq
        have hb2 : path[0]? = some b := by simpa using hb
        have := hfirst b hb2
        have hd : dirAt d (0 + 1) = flipDir d := by simp [dirAt]
        rw [hd]
        exact this
      | succ k =>
        have ha2 : path[k]? = some a := by simpa using ha
        have hb2 : path[k + 1]? = some b := by simpa using hb
        have := hsteps k a b ha2 hb2
        rw [dirAt_flipDir] at this
        exact this

theorem traceable_of_follows (grid : Grid) (hr : Rectangular grid) (r0 c0 : Nat) (d : Dir)
    (ts : List (Option Token)) (hin : InGrid grid (r0, c0))
    (hf : Follows grid (r0, c0) d ts) :
    Traceable grid r0 c0 d (tokenAt grid r0 c0 :: ts) := by
  obtain ⟨path, hlen, hcells, hfirst, hsteps⟩ := follows_path grid hr ts (r0, c0) d hf
  refine ⟨(r0, c0) :: path, by simp [hlen], by simp, ?_, ?_⟩
  · intro k x hx
    cases k with
    | zero =>
      have hxq : (r0, c0) = x := by simpa using hx
      subst hxq
      obtain ⟨tok, htk⟩ := tokenAt_of_inGrid grid hr (r0, c0) hin
      exact ⟨hin, tok, htk, by simpa using htk⟩
    | succ k =>
      have hx2 : path[k]? = some x := by simpa using hx
      obtain ⟨h1, tok, h2, h3⟩ := hcells k x hx2
      exact ⟨h1, tok, h2, by simpa using h3⟩
  · intro k a b ha hb
    cases k with
    | zero =>
      have haq : (r0, c0) = a := by simpa using ha
      subst haq
      have hb2 : path[0]? = some b := by simpa using hb
      have hd : dirAt d 0 = d := by simp [dirAt]
      rw [hd]
      exact hfirst b hb2
    | succ k =>
      have ha2 : path[k]? = some a := by simpa using ha
      have hb2 : path[k + 1]? = some b := by simpa using hb
      exact hsteps k a b ha2 hb2

/-- C11, traceability from the start: on a non-empty rectangular grid, for every start
cell of the grid, start direction `d0`, length `len >= 1` and every outcome of the draws,
`buildTrickyLine(startR, startC, len, d0)` returns a sequence `t` of `len` tokens for which
there are cells `p_0 = (startR, startC), p_1, ..., p_(len-1)` of the grid with
`grid[p_k] = t[k]`, `p_(k+1)` in the column of `p_k` when the direction of step `k` is
`column` and in its row when it is `row`, step 0 using `d0` and the direction flipping
after every step. -/
theorem traceable_from_start (grid : Grid) (ω : Nat → Nat) (k startR startC len : Nat)
    (d0 : Dir) (hg : HasCell grid) (hr : Rectangular grid)
    (hR : startR < gridRows grid) (hC : startC < gridCols grid) (hlen : 1 ≤ len) :
    ∃ t k2,
      buildTrickyLine grid ω k startR startC len d0 (defaultMinTricky len) defaultTries
        = some (t, k2) ∧
      t.length = len ∧ Traceable grid startR startC d0 t := by
  obtain ⟨ts, k2, h, hl, hf⟩ :=
    buildTrickyLine_spec grid ω hg k startR startC len d0 ⟨hR, hC⟩ hlen defaultTries
  refine ⟨_, k2, h, ?_, traceable_of_follows grid hr startR startC d0 ts ⟨hR, hC⟩ hf⟩
  simp only [List.length_cons, hl]
  omega

theorem traceable_from_start_witness :
    ∃ t k2,
      buildTrickyLine demoGrid (fun n => n) 0 1 0 3 Dir.row (defaultMinTricky 3) defaultTries
        = some (t, k2) ∧
      t.length = 3 ∧ Traceable demoGrid 1 0 Dir.row t :=
  traceable_from_start demoGrid (fun n => n) 0 1 0 3 Dir.row
    ⟨by decide, by decide⟩ (by unfold Rectangular; decide) (by decide) (by decide) (by decide)

/-! ## The generator: all lines -/

theorem follows_mem (grid : Grid) (ts : List (Option Token)) :
    ∀ (p : Nat × Nat) (d : Dir), Follows grid p d ts →
      ∀ x ∈ ts, ∃ q, InGrid grid q ∧ tokenAt grid q.1 q.2 = x := by
  induction ts with
  | nil =>
    intro p d _ x hx
    simp at hx
  | cons t ts ih =>
    intro p d hf x hx
    obtain ⟨q, hqin, _, htok, hrest⟩ := hf
    rcases List.mem_cons.mp hx with h | h
    · exact ⟨q, hqin, by rw [h]; exact htok⟩
    · exact ih q (flipDir d) hrest x h

/-- Whatever the length, `buildTrickyLine` with its defaults returns a line of that
length whose tokens are read from cells of the grid, the first one from the start
cell. -/
theorem buildTrickyLine_total (grid : Grid) (ω : Nat → Nat) (hg : HasCell grid)
    (k r0 c0 len : Nat) (d : Dir) (hin : InGrid grid (r0, c0)) :
    ∃ ln k2,
      buildTrickyLine grid ω k r0 c0 len d (defaultMinTricky len) defaultTries = some (ln, k2) ∧
      ln.length = len ∧
      (∀ x ∈ ln, ∃ q, InGrid grid q ∧ tokenAt grid q.1 q.2 = x) ∧
      (1 ≤ len → ln.head? = some (tokenAt grid r0 c0)) := by
  rcases Nat.eq_zero_or_pos len with h0 | hpos
  · subst h0
    exact ⟨[], k, buildTrickyLine_zero grid ω k r0 c0 d hin 499, rfl, by simp, by simp⟩
  · obtain ⟨ts, k2, h, hl, hf⟩ :=
      buildTrickyLine_spec grid ω hg k r0 c0 len d hin hpos defaultTries
    refine ⟨_, k2, h, by simp only [List.length_cons, hl]; omega, ?_, fun _ => rfl⟩
    intro x hx
    rcases List.mem_cons.mp hx with hx1 | hx1
    · exact ⟨(r0, c0), hin, hx1.symm⟩
    · exact follows_mem grid ts (r0, c0) d hf x hx1

/-- A line of the generator: its length is a draw of `pickLen` and its tokens are read
from cells of the grid. -/
theorem linesLoop_spec (grid : Grid) (ω : Nat → Nat) (spec : LenSpec) (hg : HasCell grid)
    (n : Nat) :
    ∀ (k : Nat) (acc : List (List (Option Token))),
      ∃ more, linesLoop grid ω spec n k acc = some (acc ++ more) ∧ more.length = n ∧
        ∀ l ∈ more, (∃ kLen, l.length = (pickLen ω kLen spec).1) ∧
          ∀ x ∈ l, ∃ q, InGrid grid q ∧ tokenAt grid q.1 q.2 = x := by
  induction n with
  | zero =>
    intro k acc
    exact ⟨[], by simp [linesLoop], rfl, by simp⟩
  | succ n ih =>
    intro k acc
    have hin : InGrid grid (rand ω k (gridRows grid), rand ω (k + 1) (gridCols grid)) :=
      ⟨rand_lt ω k _ hg.1, rand_lt ω (k + 1) _ hg.2⟩
    obtain ⟨ln, k3, hb, hl, hx, _⟩ := buildTrickyLine_total grid ω hg
      (pickLen ω (k + 3) spec).2 _ _ (pickLen ω (k + 3) spec).1
      (if coin ω (k + 2) then Dir.column else Dir.row) hin
    obtain ⟨more, hm, hmlen, hmall⟩ := ih k3 (acc ++ [ln])
    refine ⟨ln :: more, ?_, by simp [hmlen], ?_⟩
    · simp only [linesLoop, hb]
      rw [hm]
      simp
    · intro l hlmem
      rcases List.mem_cons.mp hlmem with h | h
      · subst h
        exact ⟨⟨k + 3, hl⟩, hx⟩
      · exact hmall l h

theorem generateObjectiveLines_spec (grid : Grid) (ω : Nat → Nat) (k : Nat) (spec : LenSpec)
    (numLines : Nat) (hg : HasCell grid) :
    ∃ first rest k3,
      generateObjectiveLines grid ω k spec numLines = some (first :: rest) ∧
      buildTrickyLine grid ω (pickLen ω (k + 1) spec).2 0 (rand ω k (gridCols grid))
          (pickLen ω (k + 1) spec).1 Dir.column
          (defaultMinTricky (pickLen ω (k + 1) spec).1) defaultTries = some (first, k3) ∧
      rest.length = numLines - 1 ∧
      (1 ≤ (pickLen ω (k + 1) spec).1 →
        first.head? = some (tokenAt grid 0 (rand ω k (gridCols grid)))) ∧
      ∀ l ∈ first :: rest, (∃ kLen, l.length = (pickLen ω kLen spec).1) ∧
        ∀ x ∈ l, ∃ q, InGrid grid q ∧ tokenAt grid q.1 q.2 = x := by
  have hin : InGrid grid (0, rand ω k (gridCols grid)) := ⟨hg.1, rand_lt ω k _ hg.2⟩
  obtain ⟨ln, k3, hb, hl, hx, hhead⟩ := buildTrickyLine_total grid ω hg
    (pickLen ω (k + 1) spec).2 0 _ (pickLen ω (k + 1) spec).1 Dir.column hin
  obtain ⟨more, hm, hmlen, hmall⟩ := linesLoop_spec grid ω spec hg (numLines - 1) k3 [ln]
  refine ⟨ln, more, k3, ?_, hb, hmlen, hhead, ?_⟩
  · cases hgrid : grid with
    | nil =>
      have := hg.1
      simp [hgrid, gridRows] at this
    | cons a b =>
      rw [← hgrid]
      unfold generateObjectiveLines
      rw [hgrid]
      simp only
      rw [← hgrid, hb]
      simp only
      rw [hm]
      rfl
  · intro l hlmem
    rcases List.mem_cons.mp hlmem with h | h
    · subst h
      exact ⟨⟨k + 1, hl⟩, hx⟩
    · exact hmall l h

theorem pickLen_fixed (ω : Nat → Nat) (k n : Nat) : (pickLen ω k (LenSpec.fixed n)).1 = n := rfl

theorem pickLen_range (ω : Nat → Nat) (k lo hi : Nat) (h : lo ≤ hi) :
    lo ≤ (pickLen ω k (LenSpec.range lo hi)).1 ∧ (pickLen ω k (LenSpec.range lo hi)).1 ≤ hi := by
  have hlt := rand_lt ω k (hi - lo + 1) (Nat.succ_pos _)
  simp only [pickLen]
  omega

/-- C12, token presence: on a non-empty rectangular grid, for every length spec (a number,
or a range with `min <= max`), every `numLines` and every outcome of the draws,
`generateObjectiveLines` returns lines, and every token of every line is `grid[r][c]` for
some cell `(r, c)` of the grid. -/
theorem token_presence (grid : Grid) (ω : Nat → Nat) (k : Nat) (spec : LenSpec)
    (numLines : Nat) (hg : HasCell grid) (hr : Rectangular grid) (_hv : spec.Valid) :
    ∃ lines, generateObjectiveLines grid ω k spec numLines = some lines ∧
      ∀ ln ∈ lines, ∀ x ∈ ln, ∃ r c tok,
        r < gridRows grid ∧ c < gridCols grid ∧ tokenAt grid r c = some tok ∧ x = some tok := by
  obtain ⟨first, rest, k3, hgen, _, _, _, hall⟩ :=
    generateObjectiveLines_spec grid ω k spec numLines hg
  refine ⟨first :: rest, hgen, ?_⟩
  intro ln hln x hx
  obtain ⟨q, hqin, hq⟩ := (hall ln hln).2 x hx
  obtain ⟨tok, htok⟩ := tokenAt_of_inGrid grid hr q hqin
  exact ⟨q.1, q.2, tok, hqin.1, hqin.2, htok, by rw [← hq, htok]⟩

theorem token_presence_witness :
    ∃ lines, generateObjectiveLines demoGrid (fun n => n) 0 (LenSpec.range 3 6) 4 = some lines ∧
      ∀ ln ∈ lines, ∀ x ∈ ln, ∃ r c tok,
        r < gridRows demoGrid ∧ c < gridCols demoGrid ∧ tokenAt demoGrid r c = some tok ∧
        x = some tok :=
  token_presence demoGrid (fun n => n) 0 (LenSpec.range 3 6) 4 ⟨by decide, by decide⟩
    (by unfold Rectangular; decide) (show 3 ≤ 6 by decide)

/-- C13, line count and lengths: on a grid with a first row and a first column (so on
every non-empty rectangular grid), for `numLines >= 1` and every outcome of the draws,
`generateObjectiveLines(grid, lenOrRange, numLines)` returns exactly `numLines` lines;
when `lenOrRange` is a number `n` every line has exactly `n` tokens, and when it is a
range `[min, max]` with `min <= max` every line has between `min` and `max` tokens. -/
theorem line_count_and_lengths (grid : Grid) (ω : Nat → Nat) (k : Nat) (spec : LenSpec)
    (numLines : Nat) (hg : HasCell grid) (hn : 1 ≤ numLines) :
    ∃ lines, generateObjectiveLines grid ω k spec numLines = some lines ∧
      lines.length = numLines ∧
      (∀ n, spec = LenSpec.fixed n → ∀ ln ∈ lines, ln.length = n) ∧
      (∀ lo hi, spec = LenSpec.range lo hi → lo ≤ hi →
        ∀ ln ∈ lines, lo ≤ ln.length ∧ ln.length ≤ hi) := by
  obtain ⟨first, rest, k3, hgen, _, hrest, _, hall⟩ :=
    generateObjectiveLines_spec grid ω k spec numLines hg
  refine ⟨first :: rest, hgen, ?_, ?_, ?_⟩
  · simp only [List.length_cons, hrest]
    omega
  · intro n hs ln hln
    obtain ⟨kLen, hl⟩ := (hall ln hln).1
    rw [hl, hs]
    rfl
  · intro lo hi hs hle ln hln
    obtain ⟨kLen, hl⟩ := (hall ln hln).1
    rw [hl, hs]
    exact pickLen_range ω kLen lo hi hle

theorem line_count_and_lengths_witness :
    ∃ lines, generateObjectiveLines demoGrid (fun n => n) 0 (LenSpec.range 3 6) 4 = some lines ∧
      lines.length = 4 ∧
      (∀ n, LenSpec.range 3 6 = LenSpec.fixed n → ∀ ln ∈ lines, ln.length = n) ∧
      (∀ lo hi, LenSpec.range 3 6 = LenSpec.range lo hi → lo ≤ hi →
        ∀ ln ∈ lines, lo ≤ ln.length ∧ ln.length ≤ hi) :=
  line_count_and_lengths demoGrid (fun n => n) 0 (LenSpec.range 3 6) 4
    ⟨by decide, by decide⟩ (by decide)

theorem tokenAt_row_zero (grid : Grid) (c : Nat) (hg : HasCell grid) (hc : c < gridCols grid) :
    ∃ tok, tokenAt grid 0 c = some tok := by
  obtain ⟨gridRow, hrow, _⟩ := getElem?_of_lt_gridRows grid 0 hg.1
  have hlen : c < gridRow.length := by
    have : grid.getD 0 [] = gridRow := by
      rw [List.getD_eq_getElem?_getD, hrow]
      rfl
    unfold gridCols at hc
    rw [this] at hc
    exact hc
  exact ⟨gridRow[c], by simp [tokenAt, hrow, List.getElem?_eq_getElem hlen]⟩

theorem pickLen_pos (ω : Nat → Nat) (k : Nat) (spec : LenSpec) (hp : spec.Positive) :
    1 ≤ (pickLen ω k spec).1 := by
  cases spec with
  | fixed n => exact hp
  | range lo hi => exact Nat.le_trans hp.1 (pickLen_range ω k lo hi hp.2).1

/-- C19, entry alignment of the first line: on a grid with at least one row and one
column, for every length spec that yields lengths of at least 1 (a number `n >= 1`, or a
range with `1 <= min <= max`) and every outcome of the draws, `generateObjectiveLines`
returns a first line; that line is the result of `buildTrickyLine(0, c0, len, "column")`
where `c0 = rand(cols)` is a column of the grid and `len = pickLen()` is the length drawn
for it; it has `len >= 1` tokens and its first token is the token `grid[0][c0]`; and the
cell `(0, c0)` is allowed in every state whose constraint is `top-row`. -/
theorem first_line_entry_aligned (grid : Grid) (ω : Nat → Nat) (k : Nat) (spec : LenSpec)
    (numLines : Nat) (hg : HasCell grid) (hp : spec.Positive) :
    ∃ tok first rest k3,
      rand ω k (gridCols grid) < gridCols grid ∧
      tokenAt grid 0 (rand ω k (gridCols grid)) = some tok ∧
      generateObjectiveLines grid ω k spec numLines = some (first :: rest) ∧
      buildTrickyLine grid ω (pickLen ω (k + 1) spec).2 0 (rand ω k (gridCols grid))
          (pickLen ω (k + 1) spec).1 Dir.column
          (defaultMinTricky (pickLen ω (k + 1) spec).1) defaultTries = some (first, k3) ∧
      first.length = (pickLen ω (k + 1) spec).1 ∧
      1 ≤ first.length ∧
      first.head? = some (some tok) ∧
      (∀ s : State, s.constraint = Constraint.topRow →
        allowed s 0 (rand ω k (gridCols grid)) = true) := by
  obtain ⟨first, rest, k3, hgen, hb, _, hhead, hall⟩ :=
    generateObjectiveLines_spec grid ω k spec numLines hg
  have hc : rand ω k (gridCols grid) < gridCols grid := rand_lt ω k _ hg.2
  obtain ⟨tok, htok⟩ := tokenAt_row_zero grid _ hg hc
  obtain ⟨ln2, k4, hb2, hl2, _, _⟩ := buildTrickyLine_total grid ω hg
    (pickLen ω (k + 1) spec).2 0 (rand ω k (gridCols grid)) (pickLen ω (k + 1) spec).1
    Dir.column ⟨hg.1, hc⟩
  have hfirst : first = ln2 := by
    rw [hb] at hb2
    exact (Prod.mk.inj (Option.some.inj hb2)).1
  have hlen : first.length = (pickLen ω (k + 1) spec).1 := by rw [hfirst]; exact hl2
  have hpos : 1 ≤ (pickLen ω (k + 1) spec).1 := pickLen_pos ω (k + 1) spec hp
  refine ⟨tok, first, rest, k3, hc, htok, hgen, hb, hlen, by rw [hlen]; exact hpos, ?_, ?_⟩
  · rw [hhead hpos, htok]
  · intro s hs
    simp [allowed, hs]

theorem first_line_entry_aligned_witness :
    ∃ tok first rest k3,
      rand (fun n => n + 1) 0 (gridCols demoGrid) < gridCols demoGrid ∧
      tokenAt demoGrid 0 (rand (fun n => n + 1) 0 (gridCols demoGrid)) = some tok ∧
      generateObjectiveLines demoGrid (fun n => n + 1) 0 (LenSpec.fixed 2) 2
        = some (first :: rest) ∧
      buildTrickyLine demoGrid (fun n => n + 1)
          (pickLen (fun n => n + 1) (0 + 1) (LenSpec.fixed 2)).2 0
          (rand (fun n => n + 1) 0 (gridCols demoGrid))
          (pickLen (fun n => n + 1) (0 + 1) (LenSpec.fixed 2)).1 Dir.column
          (defaultMinTricky (pickLen (fun n => n + 1) (0 + 1) (LenSpec.fixed 2)).1)
          defaultTries = some (first, k3) ∧
      first.length = (pickLen (fun n => n + 1) (0 + 1) (LenSpec.fixed 2)).1 ∧
      1 ≤ first.length ∧
      first.head? = some (some tok) ∧
      (∀ s : State, s.constraint = Constraint.topRow →
        allowed s 0 (rand (fun n => n + 1) 0 (gridCols demoGrid)) = true) :=
  first_line_entry_aligned demoGrid (fun n => n + 1) 0 (LenSpec.fixed 2) 2
    ⟨by decide, by decide⟩ (show 1 ≤ 2 by decide)

/-! ## The generator: the pass bound of the inner loop is never the reason to stop -/

theorem attemptStep_index (grid : Grid) (ω : Nat → Nat) (len i : Nat) (w w2 : Walk) (i2 : Nat)
    (h : attemptStep grid ω len i w = some (w2, i2)) : i ≤ i2 := by
  unfold attemptStep at h
  simp only at h
  split at h
  · exact absurd h (by simp)
  · split at h
    · split at h
      · exact absurd h (by simp)
      · split at h
        · exact absurd h (by simp)
        · have := (Prod.mk.inj (Option.some.inj h)).2
          omega
    · have := (Prod.mk.inj (Option.some.inj h)).2
      omega

/-- One more pass allowed changes nothing once `len - i` passes are allowed: the loop of
an attempt, given `len` passes from `i = 1`, stops because `i < len` fails. -/
theorem attemptLoop_fuel (grid : Grid) (ω : Nat → Nat) (len fuel : Nat) :
    ∀ (i : Nat) (w : Walk), len ≤ i + fuel →
      attemptLoop grid ω len (fuel + 1) i w = attemptLoop grid ω len fuel i w := by
  induction fuel with
  | zero =>
    intro i w h
    have hi : ¬ i < len := by omega
    simp [attemptLoop, hi]
  | succ fuel ih =>
    intro i w h
    rw [attemptLoop, attemptLoop]
    by_cases hi : i < len
    · simp only [if_pos hi]
      cases hs : attemptStep grid ω len i w with
      | none => rfl
      | some res =>
        obtain ⟨w2, i2⟩ := res
        have hle := attemptStep_index grid ω len i w w2 i2 hs
        exact ih (i2 + 1) w2 (by omega)
    · simp only [if_neg hi]

/-! ## Invariants of the active line and of the progress counts -/

theorem start_fields (s : State) (hd : s.difficulty.isSome = true) :
    (∀ i, progressOf (start s).lineProgress i = 0) ∧ (start s).activeLine = none := by
  cases h : s.difficulty with
  | none => simp [h] at hd
  | some d =>
    constructor
    · intro i
      simp only [start, h]
      exact progressOf_map_zero s.objectiveLines i
    · simp only [start, h]

theorem handlePick_split (s : State) (r c : Nat) :
    handlePick s r c = s ∨
    (s.running = true ∧ ∃ token : Option Token,
      (candidateLinesFor s token ≠ [] ∧ handlePick s r c
          = correctPickMulti s (divergenceGuard s token) (candidateLinesFor s token) r c) ∨
      (candidateLinesFor s token = [] ∧
        handlePick s r c = fault s (divergenceGuard s token) r c)) := by
  unfold handlePick
  split
  · exact Or.inl rfl
  · rename_i hg
    have hr : s.running = true := by
      cases hrun : s.running
      · simp [hrun] at hg
      · rfl
    split
    · exact Or.inl rfl
    · rename_i gridRow _
      simp only
      split
      · exact Or.inl rfl
      · rename_i hal
        have hal2 : allowed s r c = true := by simpa using hal
        refine Or.inr ⟨hr, gridRow[c]?, ?_⟩
        simp only [hal2, if_true]
        split
        · rename_i hpos
          exact Or.inl ⟨List.ne_nil_of_length_pos hpos, rfl⟩
        · rename_i hpos
          exact Or.inr ⟨List.length_eq_zero.mp (by omega), rfl⟩

theorem fault_activeLine (s p : State) (r c : Nat) :
    (fault s p r c).activeLine = p.activeLine := by
  unfold fault doFail
  simp only
  split <;> rfl

theorem fault_competeSet (s p : State) (r c : Nat) :
    (fault s p r c).competeSet = p.competeSet := by
  unfold fault doFail
  simp only
  split <;> rfl

theorem fault_progress_cases (s p : State) (r c i : Nat) :
    progressOf (fault s p r c).lineProgress i = progressOf p.lineProgress i ∨
    progressOf (fault s p r c).lineProgress i = 0 := by
  cases ha : s.activeLine with
  | none => rw [fault_lineProgress_none s p r c ha]; exact Or.inl rfl
  | some a =>
    by_cases hin : progressOf p.lineProgress a > 0 ∧
        progressOf p.lineProgress a < (lineOf s.objectiveLines a).length
    · rw [fault_lineProgress_reset s p r c a ha hin, progressOf_setAt]
      by_cases hia : i = a
      · exact Or.inr (by simp [hia])
      · exact Or.inl (by simp [hia])
    · rw [fault_lineProgress_idle s p r c a ha hin]; exact Or.inl rfl

/-- On the fault path, with no candidate line, the progress array is the one the
divergence guard left. -/
theorem fault_after_guard_of_nil (s : State) (token : Option Token) (r c : Nat)
    (hnil : candidateLinesFor s token = []) :
    (fault s (divergenceGuard s token) r c).lineProgress
      = (divergenceGuard s token).lineProgress := by
  cases ha : s.activeLine with
  | none => exact fault_lineProgress_none s _ r c ha
  | some a =>
    apply fault_lineProgress_idle s _ r c a ha
    intro hp
    by_cases hd : Diverges s token a
    · rw [divergenceGuard_progress_zero s token a hd] at hp
      exact absurd hp.1 (Nat.lt_irrefl 0)
    · rw [divergenceGuard_progress_same s token a hd] at hp
      have hmem : a ∈ candidateLinesFor s token := by
        rw [mem_candidateLinesFor]
        refine ⟨lt_length_of_lineOf _ _ _ hp.2, hp.2, ?_⟩
        by_contra hne
        exact hd ⟨ha, hp, fun e => hne e.symm⟩
      rw [hnil] at hmem
      exact absurd hmem (List.not_mem_nil a)

/-- One pick moves each progress count to its old value, to its old value plus one (only
below the line's length), or to zero. -/
theorem handlePick_progress_step (s : State) (r c i : Nat) :
    progressOf (handlePick s r c).lineProgress i = progressOf s.lineProgress i ∨
    (progressOf (handlePick s r c).lineProgress i = progressOf s.lineProgress i + 1 ∧
      progressOf s.lineProgress i < (lineOf s.objectiveLines i).length) ∨
    progressOf (handlePick s r c).lineProgress i = 0 := by
  rcases handlePick_split s r c with he | ⟨_, token, ⟨_, he⟩ | ⟨_, he⟩⟩
  · rw [he]; exact Or.inl rfl
  · rw [he]
    by_cases hm : i ∈ candidateLinesFor s token
    · exact Or.inr (Or.inl ⟨advance_progress_of_mem s token r c i hm,
        ((mem_candidateLinesFor s token i).mp hm).2.1⟩)
    · rcases advance_progress_of_not_mem s token r c i hm with h | h
      · exact Or.inl h
      · exact Or.inr (Or.inr h)
  · rw [he]
    rcases fault_progress_cases s (divergenceGuard s token) r c i with h | h
    · rw [h]
      rcases divergenceGuard_progress_cases s token i with h2 | h2
      · exact Or.inl h2
      · exact Or.inr (Or.inr h2)
    · exact Or.inr (Or.inr h)

theorem tick_fields (s : State) :
    (tick s).lineProgress = s.lineProgress ∧ (tick s).objectiveLines = s.objectiveLines ∧
    (tick s).activeLine = s.activeLine ∧ (tick s).competeSet = s.competeSet := by
  unfold tick doFail
  split
  · exact ⟨rfl, rfl, rfl, rfl⟩
  · simp only
    split <;> exact ⟨rfl, rfl, rfl, rfl⟩

theorem progressBounded_handlePick (s : State) (r c : Nat) (h : ProgressBounded s) :
    ProgressBounded (handlePick s r c) := by
  intro i
  rw [handlePick_objectiveLines]
  have hi := h i
  rcases handlePick_progress_step s r c i with h1 | ⟨h1, h2⟩ | h1 <;> rw [h1] <;> omega

theorem progressBounded_tick (s : State) (h : ProgressBounded s) :
    ProgressBounded (tick s) := by
  obtain ⟨h1, h2, _, _⟩ := tick_fields s
  unfold ProgressBounded
  rw [h1, h2]
  exact h

theorem progressBounded_start (s : State) (hd : s.difficulty.isSome = true) :
    ProgressBounded (start s) := by
  intro i
  rw [(start_fields s hd).1]
  exact Nat.zero_le _

theorem progressBounded_run (es : List Event) (s : State) (h : ProgressBounded s) :
    ProgressBounded (run s es) := by
  induction es generalizing s with
  | nil => exact h
  | cons e es ih =>
    have hstep : run s (e :: es) = run (step s e) es := rfl
    rw [hstep]
    apply ih
    cases e with
    | pick r c => exact progressBounded_handlePick s r c h
    | tick => exact progressBounded_tick s h

theorem activeOk_handlePick (s : State) (r c : Nat) (h : ActiveOk s) :
    ActiveOk (handlePick s r c) := by
  rcases handlePick_split s r c with he | ⟨_, token, ⟨_, he⟩ | ⟨hnil, he⟩⟩
  · rw [he]; exact h
  · intro a ha
    rw [handlePick_objectiveLines]
    rw [he] at ha ⊢
    rw [correctPickMulti_activeLine] at ha
    have hm : a ∈ candidateLinesFor s token := List.mem_of_getLast?_eq_some ha
    refine ⟨((mem_candidateLinesFor s token a).mp hm).1, ?_⟩
    rw [advance_progress_of_mem s token r c a hm]
    exact Nat.succ_pos _
  · intro a ha
    rw [handlePick_objectiveLines]
    rw [he] at ha ⊢
    rw [fault_activeLine] at ha
    rw [fault_after_guard_of_nil s token r c hnil]
    rcases diverges_or_not s token with ⟨b, hb⟩ | hn
    · rw [divergenceGuard_of_diverges s token b hb] at ha
      exact absurd ha (by simp)
    · rw [divergenceGuard_of_not_diverges s token hn] at ha ⊢
      exact h a ha

theorem activeOk_tick (s : State) (h : ActiveOk s) : ActiveOk (tick s) := by
  obtain ⟨h1, h2, h3, _⟩ := tick_fields s
  unfold ActiveOk
  rw [h1, h2, h3]
  exact h

theorem activeOk_start (s : State) (hd : s.difficulty.isSome = true) : ActiveOk (start s) := by
  intro a ha
  rw [(start_fields s hd).2] at ha
  exact absurd ha (by simp)

theorem activeOk_run (es : List Event) (s : State) (h : ActiveOk s) : ActiveOk (run s es) := by
  induction es generalizing s with
  | nil => exact h
  | cons e es ih =>
    have hstep : run s (e :: es) = run (step s e) es := rfl
    rw [hstep]
    apply ih
    cases e with
    | pick r c => exact activeOk_handlePick s r c h
    | tick => exact activeOk_tick s h

/-- C21, active-line invariant: in every state reached from `start()` by picks and timer
firings, `activeLine` is null or the index of an objective line whose progress is above
zero. -/
theorem active_line_invariant (s : State) (h : Reachable s) :
    s.activeLine = none ∨
    ∃ a, s.activeLine = some a ∧ a < s.objectiveLines.length ∧
      progressOf s.lineProgress a > 0 := by
  obtain ⟨s0, es, hd, rfl⟩ := h
  have hok := activeOk_run es _ (activeOk_start s0 hd)
  cases ha : (run (start s0) es).activeLine with
  | none => exact Or.inl rfl
  | some a => exact Or.inr ⟨a, rfl, hok a ha⟩

theorem active_line_invariant_witness :
    afterSharedPick.activeLine = none ∨
    ∃ a, afterSharedPick.activeLine = some a ∧ a < afterSharedPick.objectiveLines.length ∧
      progressOf afterSharedPick.lineProgress a > 0 :=
  active_line_invariant afterSharedPick
    ⟨easyBoard, [Event.pick 0 0, Event.pick 1 0], rfl, rfl⟩

/-- C22, progress bounds: in every state reached from `start()` by picks and timer
firings every line `i` has `0 <= lineProgress[i] <= length(line i)`; and one pick, in any
state, takes each `lineProgress[i]` to its old value, its old value plus one, or zero. -/
theorem progress_bounds :
    (∀ s : State, Reachable s → ∀ i,
      0 ≤ progressOf s.lineProgress i ∧
      progressOf s.lineProgress i ≤ (lineOf s.objectiveLines i).length) ∧
    (∀ (s : State) (r c i : Nat),
      progressOf (handlePick s r c).lineProgress i = progressOf s.lineProgress i ∨
      progressOf (handlePick s r c).lineProgress i = progressOf s.lineProgress i + 1 ∨
      progressOf (handlePick s r c).lineProgress i = 0) := by
  constructor
  · rintro s ⟨s0, es, hd, rfl⟩ i
    exact ⟨Nat.zero_le _, progressBounded_run es _ (progressBounded_start s0 hd) i⟩
  · intro s r c i
    rcases handlePick_progress_step s r c i with h | ⟨h, _⟩ | h
    · exact Or.inl h
    · exact Or.inr (Or.inl h)
    · exact Or.inr (Or.inr h)

theorem progress_bounds_witness :
    ∀ i, 0 ≤ progressOf afterSharedPick.lineProgress i ∧
      progressOf afterSharedPick.lineProgress i
        ≤ (lineOf afterSharedPick.objectiveLines i).length :=
  progress_bounds.1 afterSharedPick ⟨easyBoard, [Event.pick 0 0, Event.pick 1 0], rfl, rfl⟩

/-! ## When the cohort expires -/

theorem handlePick_split_token (s : State) (r c : Nat) :
    handlePick s r c = s ∨
    (Running s ∧ allowed s r c = true ∧
      ((candidateLinesFor s (tokenAt s.grid r c) ≠ [] ∧ handlePick s r c
          = correctPickMulti s (divergenceGuard s (tokenAt s.grid r c))
              (candidateLinesFor s (tokenAt s.grid r c)) r c) ∨
       (candidateLinesFor s (tokenAt s.grid r c) = [] ∧
        handlePick s r c = fault s (divergenceGuard s (tokenAt s.grid r c)) r c))) := by
  by_cases hrun : Running s
  · by_cases hall : allowed s r c = true
    · cases hg : s.grid[r]? with
      | none =>
        left
        unfold handlePick
        simp [hg]
      | some gridRow =>
        have htok : tokenAt s.grid r c = gridRow[c]? := by simp [tokenAt, hg]
        obtain ⟨h1, h2, h3⟩ := hrun
        right
        refine ⟨⟨h1, h2, h3⟩, hall, ?_⟩
        rw [htok]
        unfold handlePick
        simp only [h1, h2, h3, hall, hg, Bool.not_true, Bool.or_false, Bool.false_eq_true,
          if_false, if_true]
        by_cases hpos : (candidateLinesFor s gridRow[c]?).length > 0
        · rw [if_pos hpos]
          exact Or.inl ⟨List.ne_nil_of_length_pos hpos, rfl⟩
        · rw [if_neg hpos]
          exact Or.inr ⟨List.length_eq_zero.mp (by omega), rfl⟩
    · left
      have : allowed s r c = false := by
        cases h : allowed s r c
        · rfl
        · exact absurd h hall
      unfold handlePick
      split
      · rfl
      · split
        · rfl
        · simp [this]
  · left
    unfold handlePick
    have : (!s.running || s.win || s.fail) = true := by
      unfold Running at hrun
      cases h1 : s.running <;> cases h2 : s.win <;> cases h3 : s.fail <;> simp_all
    rw [if_pos this]

theorem divergenceGuard_competeSet_of_diverges (s : State) (token : Option Token) (a : Nat)
    (h : Diverges s token a) : (divergenceGuard s token).competeSet = none := by
  rw [divergenceGuard_of_diverges s token a h]

theorem divergenceGuard_competeSet_cases (s : State) (token : Option Token) :
    (divergenceGuard s token).competeSet = s.competeSet ∨
    (divergenceGuard s token).competeSet = none := by
  rcases diverges_or_not s token with ⟨a, h⟩ | h
  · exact Or.inr (divergenceGuard_competeSet_of_diverges s token a h)
  · rw [divergenceGuard_of_not_diverges s token h]
    exact Or.inl rfl

theorem cohortStep_single_member (s p : State) (cs : List Nat) (k : Nat)
    (hcs : s.competeSet = some cs) (hk : k ∈ cs) :
    (cohortStep s p [k]).competeSet = none := by
  unfold cohortStep
  have hlen : ¬ ([k] : List Nat).length > 1 := by simp
  rw [if_neg hlen]
  simp only [hcs]
  have hc : cs.contains k = true := by simpa using hk
  rw [if_pos hc]

theorem cohortStep_single_other (s p : State) (k : Nat)
    (hk : ∀ cs, s.competeSet = some cs → k ∉ cs) :
    (cohortStep s p [k]).competeSet = p.competeSet := by
  unfold cohortStep
  have hlen : ¬ ([k] : List Nat).length > 1 := by simp
  rw [if_neg hlen]
  cases hcs : s.competeSet with
  | none => rfl
  | some cs =>
    simp only
    have hc : ¬ cs.contains k = true := by simpa using hk cs hcs
    rw [if_neg hc]

theorem cohortStep_competeSet_cases (s p : State) (l : List Nat) :
    (cohortStep s p l).competeSet = p.competeSet ∨
    (cohortStep s p l).competeSet = none ∨
    (l.length > 1 ∧ (cohortStep s p l).competeSet = some (newSet l)) := by
  unfold cohortStep
  split
  · rename_i h
    exact Or.inr (Or.inr ⟨h, rfl⟩)
  · split
    · split
      · exact Or.inr (Or.inl rfl)
      · exact Or.inl rfl
    · exact Or.inl rfl

theorem midOther_iff_diverges (s : State) (T : Token) (k : Nat)
    (hex : ∀ i, NeedsNext s i T ↔ i = k) :
    MidOther s k ↔ ∃ a, Diverges s (some T) a := by
  constructor
  · rintro ⟨a, ha, hak, hp1, hp2⟩
    refine ⟨a, ha, ⟨hp1, hp2⟩, ?_⟩
    intro he
    exact hak ((hex a).mp ⟨lt_length_of_lineOf _ _ _ hp2, hp2, he.symm⟩)
  · rintro ⟨a, ha, ⟨hp1, hp2⟩, hne⟩
    refine ⟨a, ha, ?_, hp1, hp2⟩
    intro hak
    subst hak
    exact hne ((hex a).mpr rfl).2.2.symm

theorem handlePick_competeSet_cases (s : State) (r c : Nat) :
    (handlePick s r c).competeSet = s.competeSet ∨
    (handlePick s r c).competeSet = none ∨
    ∃ cs, (handlePick s r c).competeSet = some cs ∧ AdvancedTogether s r c cs := by
  rcases handlePick_split_token s r c with he | ⟨hrun, hall, ⟨_, he⟩ | ⟨_, he⟩⟩
  · rw [he]; exact Or.inl rfl
  · have hcs : (handlePick s r c).competeSet
        = (cohortStep s
            { divergenceGuard s (tokenAt s.grid r c) with
              lineProgress := advanceAll (divergenceGuard s (tokenAt s.grid r c)).lineProgress
                (candidateLinesFor s (tokenAt s.grid r c)) }
            (candidateLinesFor s (tokenAt s.grid r c))).competeSet := by
      rw [he, correctPickMulti_competeSet]
    rcases cohortStep_competeSet_cases s
        { divergenceGuard s (tokenAt s.grid r c) with
          lineProgress := advanceAll (divergenceGuard s (tokenAt s.grid r c)).lineProgress
            (candidateLinesFor s (tokenAt s.grid r c)) }
        (candidateLinesFor s (tokenAt s.grid r c)) with h | h | ⟨hlen, h⟩
    · rw [hcs, h]
      simp only
      rcases divergenceGuard_competeSet_cases s (tokenAt s.grid r c) with h2 | h2
      · exact Or.inl h2
      · exact Or.inr (Or.inl h2)
    · exact Or.inr (Or.inl (hcs.trans h))
    · refine Or.inr (Or.inr ⟨candidateLinesFor s (tokenAt s.grid r c), ?_, hrun, hall, rfl,
        hlen, ?_⟩)
      · rw [hcs, h, newSet_of_nodup _ (candidateLinesFor_nodup s _)]
      · intro i hi
        rw [he]
        exact advance_progress_of_mem s _ r c i hi
  · rw [he, fault_competeSet]
    rcases divergenceGuard_competeSet_cases s (tokenAt s.grid r c) with h2 | h2
    · exact Or.inl h2
    · exact Or.inr (Or.inl h2)

theorem candidateLinesFor_none (s : State) : candidateLinesFor s none = [] := by
  apply candidateLinesFor_eq_nil
  intro i hi
  obtain ⟨_, h2, h3⟩ := (mem_candidateLinesFor s none i).mp hi
  rw [List.getElem?_eq_getElem h2] at h3
  exact absurd h3 (by simp)

/-- A pick that advances two or more lines together leaves exactly them as the cohort. -/
theorem advancedTogether_competeSet (s : State) (r c : Nat) (cs : List Nat)
    (h : AdvancedTogether s r c cs) : (handlePick s r c).competeSet = some cs := by
  obtain ⟨hrun, hall, hcs, hlen, _⟩ := h
  cases htok : tokenAt s.grid r c with
  | none =>
    rw [htok, candidateLinesFor_none] at hcs
    rw [hcs] at hlen
    exact absurd hlen (by simp)
  | some T =>
    rw [htok] at hcs
    have hpos : (candidateLinesFor s (some T)).length > 0 := by rw [← hcs]; omega
    have hgt : (candidateLinesFor s (some T)).length > 1 := by rw [← hcs]; omega
    rw [handlePick_of_allowed s r c T hrun htok hall, if_pos hpos, correctPickMulti_competeSet,
      (cohortStep_pair s _ _ hgt).1, newSet_of_nodup _ (candidateLinesFor_nodup s _), hcs]

theorem run_append_pick (s : State) (es1 es2 : List Event) (e : Event) :
    run s (es1 ++ e :: es2) = run (step (run s es1) e) es2 := by
  simp [run, List.foldl_append]

/-- A cohort present after a run was either there at its beginning, with no shared advance
since, or was set by the latest pick of the run that advanced two or more lines
together. -/
theorem run_cohort_origin (es : List Event) :
    ∀ (s : State) (cs : List Nat), (run s es).competeSet = some cs →
      (s.competeSet = some cs ∧ NoSharedAdvance s es) ∨
      ∃ es1 r c es2, es = es1 ++ Event.pick r c :: es2 ∧
        AdvancedTogether (run s es1) r c cs ∧
        NoSharedAdvance (step (run s es1) (Event.pick r c)) es2 := by
  induction es with
  | nil =>
    intro s cs h
    exact Or.inl ⟨h, trivial⟩
  | cons e es ih =>
    intro s cs h
    have hstep : run s (e :: es) = run (step s e) es := rfl
    rw [hstep] at h
    rcases ih (step s e) cs h with ⟨h1, hno⟩ | ⟨es1, r, c, es2, hes, hadv, hno⟩
    · cases e with
      | tick =>
        left
        have := (tick_fields s).2.2.2
        exact ⟨this ▸ h1, trivial, hno⟩
      | pick r c =>
        by_cases hsh : ∃ cs2, AdvancedTogether s r c cs2
        · obtain ⟨cs2, hadv⟩ := hsh
          have h4 : (handlePick s r c).competeSet = some cs := h1
          rw [advancedTogether_competeSet s r c cs2 hadv] at h4
          have hcs : cs2 = cs := Option.some.inj h4
          subst hcs
          exact Or.inr ⟨[], r, c, es, rfl, hadv, hno⟩
        · have hnone : ∀ cs2, ¬ AdvancedTogether s r c cs2 := fun cs2 h2 => hsh ⟨cs2, h2⟩
          rcases handlePick_competeSet_cases s r c with h2 | h2 | ⟨cs2, _, h3⟩
          · exact Or.inl ⟨h2 ▸ h1, hnone, hno⟩
          · have h4 : (handlePick s r c).competeSet = some cs := h1
            rw [h2] at h4
            exact absurd h4 (by simp)
          · exact absurd h3 (hnone cs2)
    · exact Or.inr ⟨e :: es1, r, c, es2, by rw [hes]; rfl, hadv, hno⟩

theorem noSharedAdvance_split (es3 : List Event) :
    ∀ (s : State) (r c : Nat) (es4 : List Event) (cs : List Nat),
      NoSharedAdvance s (es3 ++ Event.pick r c :: es4) →
      ¬ AdvancedTogether (run s es3) r c cs := by
  induction es3 with
  | nil =>
    intro s r c es4 cs h
    exact h.1 cs
  | cons e es3 ih =>
    intro s r c es4 cs h
    exact ih (step s e) r c es4 cs h.2

/-- C23, cohort expiry, as the code has it: in a running session, after an accepted pick
that advances exactly one line `k`, the cohort is null when `k` was a member of the
previous cohort, and also when the active line was mid-progress and was not `k` (the
divergence guard then resets it and clears the cohort); when `k` was not a member and the
active line was absent, not mid-progress or `k` itself, the cohort is left as it was.  In
every state reached from `start()` the cohort, when defined, is exactly the set of two or
more lines advanced together by the latest accepted pick of the session that advanced two
or more lines: that pick is in the run, and no pick after it advanced two or more
lines. -/
theorem cohort_expiry :
    (∀ (s : State) (r c : Nat) (T : Token) (k : Nat), Running s → allowed s r c = true →
      tokenAt s.grid r c = some T → (∀ i, NeedsNext s i T ↔ i = k) →
      ((∃ cs, s.competeSet = some cs ∧ k ∈ cs) → (handlePick s r c).competeSet = none) ∧
      (MidOther s k → (handlePick s r c).competeSet = none) ∧
      ((∀ cs, s.competeSet = some cs → k ∉ cs) → ¬ MidOther s k →
        (handlePick s r c).competeSet = s.competeSet)) ∧
    (∀ (s0 : State) (es : List Event) (cs : List Nat), s0.difficulty.isSome = true →
      (run (start s0) es).competeSet = some cs →
      ∃ es1 r c es2, es = es1 ++ Event.pick r c :: es2 ∧
        AdvancedTogether (run (start s0) es1) r c cs ∧
        ∀ (es3 : List Event) (r2 c2 : Nat) (es4 : List Event) (cs2 : List Nat),
          es2 = es3 ++ Event.pick r2 c2 :: es4 →
          ¬ AdvancedTogether (run (start s0) (es1 ++ Event.pick r c :: es3)) r2 c2 cs2) := by
  constructor
  · intro s r c T k hrun hall htok hex
    have hk : NeedsNext s k T := (hex k).mpr rfl
    have hc : candidateLinesFor s (some T) = [k] :=
      candidateLinesFor_eq_single s (some T) k
        (fun i => (mem_candidateLinesFor_some s T i).trans (hex i))
    rw [handlePick_advance s r c T k hrun htok hall hk, correctPickMulti_competeSet, hc]
    have hmem_or : (∃ cs, s.competeSet = some cs ∧ k ∈ cs) ∨
        ∀ cs, s.competeSet = some cs → k ∉ cs := by
      by_cases h : ∃ cs, s.competeSet = some cs ∧ k ∈ cs
      · exact Or.inl h
      · exact Or.inr (fun cs hcs hm => h ⟨cs, hcs, hm⟩)
    refine ⟨?_, ?_, ?_⟩
    · rintro ⟨cs, hcs, hm⟩
      exact cohortStep_single_member s _ cs k hcs hm
    · intro hmid
      obtain ⟨a, hd⟩ := (midOther_iff_diverges s T k hex).mp hmid
      rcases hmem_or with ⟨cs, hcs, hm⟩ | hno
      · exact cohortStep_single_member s _ cs k hcs hm
      · rw [cohortStep_single_other s _ k hno]
        exact divergenceGuard_competeSet_of_diverges s (some T) a hd
    · intro hno hmid
      rw [cohortStep_single_other s _ k hno]
      have hnd : ∀ a, ¬ Diverges s (some T) a :=
        fun a hd => hmid ((midOther_iff_diverges s T k hex).mpr ⟨a, hd⟩)
      simp only
      rw [divergenceGuard_of_not_diverges s (some T) hnd]
  · intro s0 es cs hd h
    rcases run_cohort_origin es (start s0) cs h with ⟨h1, _⟩ | ⟨es1, r, c, es2, hes, hadv, hno⟩
    · cases hdiff : s0.difficulty with
      | none => simp [hdiff] at hd
      | some d =>
        simp [start, hdiff] at h1
    · refine ⟨es1, r, c, es2, hes, hadv, ?_⟩
      intro es3 r2 c2 es4 cs2 hsplit
      rw [run_append_pick]
      rw [hsplit] at hno
      exact noSharedAdvance_split es3 _ r2 c2 es4 cs2 hno

theorem cohort_expiry_witness :
    afterSharedPick.competeSet = some [0, 1] ∧
    (handlePick afterSharedPick 1 1).competeSet = none ∧
    ∃ es1 r c es2,
      [Event.pick 0 0, Event.pick 1 0, Event.pick 1 1, Event.pick 0 1]
        = es1 ++ Event.pick r c :: es2 ∧
      AdvancedTogether (run (start mediumBoard) es1) r c [2, 3] ∧
      ∀ (es3 : List Event) (r2 c2 : Nat) (es4 : List Event) (cs2 : List Nat),
        es2 = es3 ++ Event.pick r2 c2 :: es4 →
        ¬ AdvancedTogether (run (start mediumBoard) (es1 ++ Event.pick r c :: es3))
            r2 c2 cs2 :=
  ⟨by decide,
    (cohort_expiry.1 afterSharedPick 1 1 "F4" 1 (by decide) (by decide) (by decide)
      (by
        intro i
        constructor
        · intro h
          have h1 : i < 2 := h.1
          have h2 : i ≠ 0 := by
            rintro rfl
            revert h
            decide
          omega
        · rintro rfl
          decide)).1 ⟨[0, 1], by decide, by decide⟩,
    cohort_expiry.2 mediumBoard
      [Event.pick 0 0, Event.pick 1 0, Event.pick 1 1, Event.pick 0 1] [2, 3]
      (by decide) (by decide)⟩

/-- C23 as stated fails on the Medium board: after `start()` and the picks `(0,0)`,
`(1,0)`, `(1,1)` the session is running with cohort `{2,3}`, both lines complete and line 3
active; the allowed pick `(0,1)` then advances line 0 and no other line, and the cohort in
the resulting state is still `{2,3}`, not null. -/
theorem cohort_kept_after_unrelated_advance :
    Reachable mediumAfterShared ∧
    candidateLinesFor mediumAfterShared (some "C2") = [0] ∧
    (handlePick mediumAfterShared 0 1).lineProgress = [1, 0, 3, 3] ∧
    (handlePick mediumAfterShared 0 1).competeSet = some [2, 3] ∧
    ¬ (∀ (s : State) (r c : Nat) (T : Token) (k : Nat), Running s → allowed s r c = true →
        tokenAt s.grid r c = some T → (∀ i, NeedsNext s i T ↔ i = k) →
        (handlePick s r c).competeSet = none) := by
  refine ⟨⟨mediumBoard, [Event.pick 0 0, Event.pick 1 0, Event.pick 1 1], rfl, rfl⟩,
    by decide, by decide, by decide, ?_⟩
  intro hall
  have h := hall mediumAfterShared 0 1 "C2" 0 (by decide) (by decide) (by decide)
    (by
      intro i
      constructor
      · intro h
        have h1 : i < 4 := h.1
        have h2 : i = 0 ∨ i = 1 ∨ i = 2 ∨ i = 3 := by omega
        rcases h2 with rfl | rfl | rfl | rfl
        · rfl
        · revert h; decide
        · revert h; decide
        · revert h; decide
      · rintro rfl
        decide)
  revert h
  decide

/-! ## The tricky attempts never qualify -/

theorem attemptLoop_lookAhead (grid : Grid) (ω : Nat → Nat) (len : Nat) (hg : HasCell grid)
    (fuel : Nat) :
    ∀ (i : Nat) (w : Walk), InGrid grid (w.r, w.c) →
      ∃ w2, attemptLoop grid ω len fuel i w = some w2 ∧
        w2.trickyCount ≤ w.trickyCount + lookAheadSteps grid ω len fuel i w ∧
        lookAheadSteps grid ω len fuel i w ≤ (len - i) / 2 := by
  induction fuel with
  | zero =>
    intro i w _
    exact ⟨w, rfl, Nat.le_refl _, Nat.zero_le _⟩
  | succ fuel ih =>
    intro i w hin
    unfold attemptLoop lookAheadSteps
    by_cases hi : i < len
    · simp only [if_pos hi]
      obtain ⟨w2, i2, hstep, hin2, hcase⟩ := attemptStep_spec grid ω len i w hg hin
      simp only [hstep]
      obtain ⟨w3, hw3, hle, hcount⟩ := ih (i2 + 1) w2 hin2
      refine ⟨w3, hw3, ?_, ?_⟩
      · rcases hcase with ⟨h1, h2, h3⟩ | ⟨h1, h2, h3⟩
        · simp only [if_pos h1]
          omega
        · simp only [if_neg h1]
          omega
      · rcases hcase with ⟨h1, h2, h3⟩ | ⟨h1, h2, h3⟩
        · subst h2
          simp only [if_pos h1]
          omega
        · subst h2
          simp only [if_neg h1]
          omega
    · simp only [if_neg hi]
      exact ⟨w, rfl, Nat.le_refl _, Nat.zero_le _⟩

theorem attempt_eq_attemptLoop (grid : Grid) (ω : Nat → Nat) (k startR startC len : Nat)
    (d : Dir) (hR : startR < gridRows grid) :
    attempt grid ω k startR startC len d
      = attemptLoop grid ω len len 1 (attemptStart grid k startR startC d) := by
  obtain ⟨gridRow, hrow, _⟩ := getElem?_of_lt_gridRows grid startR hR
  simp [attempt, attemptStart, tokenAt, hrow]

theorem triesLoop_eq_positionAfterAttempts (grid : Grid) (ω : Nat → Nat) (hg : HasCell grid)
    (startR startC len : Nat) (d : Dir) (hin : InGrid grid (startR, startC))
    (hlen : 1 ≤ len) (n : Nat) :
    ∀ k, triesLoop grid ω startR startC len d (defaultMinTricky len) n k
      = buildSimpleConnectedLine grid ω
          (positionAfterAttempts grid ω startR startC len d n k) startR startC len d := by
  induction n with
  | zero =>
    intro k
    rfl
  | succ n ih =>
    intro k
    obtain ⟨w, hw, hle⟩ := attempt_spec grid ω hg k startR startC len d hin
    unfold triesLoop positionAfterAttempts
    simp only [hw]
    rw [if_neg]
    · exact ih w.pos
    · intro hc
      have h1 := hc.1
      unfold defaultMinTricky at h1
      omega

/-- C24, tricky attempts never qualify: on a grid with a first row and a first column (so
on every non-empty rectangular grid), for every start cell of the grid, start direction,
`len >= 1` and every outcome of the draws, each attempt of `buildTrickyLine` runs to the
end of its inner loop, takes the look-ahead branch at most `floor((len-1)/2)` times, and
ends with `trickyCount` at most that number, strictly below the default
`minTricky = ceil(len/2)`; so `buildTrickyLine` with the default `minTricky`, whatever the
number of tries, returns the result of `buildSimpleConnectedLine(startR, startC, len,
startDir)` on the draws that remain after the attempts. -/
theorem tricky_attempts_never_qualify (grid : Grid) (ω : Nat → Nat)
    (startR startC len : Nat) (d : Dir) (hg : HasCell grid)
    (hR : startR < gridRows grid) (hC : startC < gridCols grid) (hlen : 1 ≤ len) :
    (2 * defaultMinTricky len = len ∨ 2 * defaultMinTricky len = len + 1) ∧
    (∀ k, ∃ w, attempt grid ω k startR startC len d = some w ∧
      lookAheadSteps grid ω len len 1 (attemptStart grid k startR startC d) ≤ (len - 1) / 2 ∧
      w.trickyCount ≤ lookAheadSteps grid ω len len 1 (attemptStart grid k startR startC d) ∧
      w.trickyCount < defaultMinTricky len) ∧
    (∀ k tries,
      buildTrickyLine grid ω k startR startC len d (defaultMinTricky len) tries
        = buildSimpleConnectedLine grid ω
            (positionAfterAttempts grid ω startR startC len d tries k) startR startC len d) := by
  refine ⟨?_, ?_, ?_⟩
  · unfold defaultMinTricky
    omega
  · intro k
    obtain ⟨w, hw, hle, hcount⟩ := attemptLoop_lookAhead grid ω len hg len 1
      (attemptStart grid k startR startC d) ⟨hR, hC⟩
    refine ⟨w, by rw [attempt_eq_attemptLoop grid ω k startR startC len d hR]; exact hw,
      hcount, ?_, ?_⟩
    · have h0 : (attemptStart grid k startR startC d).trickyCount = 0 := rfl
      omega
    · have h0 : (attemptStart grid k startR startC d).trickyCount = 0 := rfl
      unfold defaultMinTricky
      omega
  · intro k tries
    exact triesLoop_eq_positionAfterAttempts grid ω hg startR startC len d ⟨hR, hC⟩ hlen tries k

theorem tricky_attempts_never_qualify_witness :
    buildTrickyLine demoGrid (fun n => n) 0 1 0 3 Dir.row (defaultMinTricky 3) defaultTries
      = buildSimpleConnectedLine demoGrid (fun n => n)
          (positionAfterAttempts demoGrid (fun n => n) 1 0 3 Dir.row defaultTries 0)
          1 0 3 Dir.row :=
  (tricky_attempts_never_qualify demoGrid (fun n => n) 1 0 3 Dir.row
    ⟨by decide, by decide⟩ (by decide) (by decide) (by decide)).2.2 0 defaultTries

end Hack
